import Mathlib

set_option linter.unusedVariables false

/-!
Verification of the resilient row-enrichment pipeline implemented in
`food_ai_server_data_pipeline.py` and `food_web_app_data_pipeline.py`.

Python strings are modelled as lists of characters (`Str`); Python dicts of
strings as insertion-ordered association lists (`Dict`) whose insert updates
in place (keeping the original position) and otherwise appends, exactly like
a CPython dict.  External model calls are modelled as oracle functions; a
raised exception is modelled as `none`.
-/

namespace FoodPipeline

/-- A Python string, modelled as its list of characters. -/
abbrev Str := List Char

/-- Turn a Lean string literal into the character-list model. -/
def S (s : String) : Str := s.data

/-- The whitespace class of Python `str.strip()` / `str.split()`
(restricted to its ASCII members, the only ones the pipeline meets). -/
def isPySpace (c : Char) : Bool :=
  c = ' ' || c = '\t' || c = '\n' || c = '\r' || c = '\x0b' || c = '\x0c'

/-- Left part of Python `str.strip()`: drop the leading whitespace run. -/
def pyStripLeft : Str → Str
  | [] => []
  | c :: rest => if isPySpace c then pyStripLeft rest else c :: rest

/-- Right part of Python `str.strip()`: drop the trailing whitespace run. -/
def pyStripRight : Str → Str
  | [] => []
  | c :: rest =>
    match pyStripRight rest with
    | [] => if isPySpace c then [] else [c]
    | r => c :: r

/-- Python `str.strip()`. -/
def pyStrip (s : Str) : Str := pyStripRight (pyStripLeft s)

/-- Line-terminator class of Python `str.splitlines()`. -/
def isLineTerm (c : Char) : Bool :=
  c = '\n' || c = '\r' || c = '\x0b' || c = '\x0c' || c = '\x1c' || c = '\x1d' ||
    c = '\x1e' || c = '\x85' || c = '\u2028' || c = '\u2029'

/-- Replace each two-character terminator `"\r\n"` by the one-character
terminator `'\n'`, so that the line splitter below only meets
one-character terminators. -/
def collapseCrLf : Str → Str
  | [] => []
  | [c] => [c]
  | c :: d :: rest =>
    if c = '\r' && d = '\n' then '\n' :: collapseCrLf rest
    else c :: collapseCrLf (d :: rest)

/-- Worker for Python `str.splitlines()` after `"\r\n"` collapsing:
accumulate the current line (in reverse); a terminator emits the line; the
final unterminated line is emitted whenever non-empty, so a trailing
terminator produces no extra empty line. -/
def splitlinesAux : Str → Str → List Str
  | acc, [] => if acc = [] then [] else [acc.reverse]
  | acc, c :: rest =>
    if isLineTerm c then acc.reverse :: splitlinesAux [] rest
    else splitlinesAux (c :: acc) rest

/-- Python `str.splitlines()`. -/
def pySplitlines (s : Str) : List Str := splitlinesAux [] (collapseCrLf s)

/-- Python `str.split(sep)` for a one-character separator. -/
def splitOnChar (sep : Char) : Str → List Str
  | [] => [[]]
  | c :: rest =>
    if c = sep then [] :: splitOnChar sep rest
    else
      match splitOnChar sep rest with
      | [] => [[c]]
      | l :: ls => (c :: l) :: ls

/-- Python `str.split(sep, 1)`, as the pair around the first separator;
`none` when the separator does not occur (so `isSome` is Python's
`sep in s`). -/
def splitFirst (sep : Char) : Str → Option (Str × Str)
  | [] => none
  | c :: rest =>
    if c = sep then some ([], rest)
    else (splitFirst sep rest).map (fun p => (c :: p.1, p.2))

/-- Worker for Python `str.split()` with no argument: split on whitespace
runs, never emitting empty words. -/
def splitWSAux : Str → Str → List Str
  | acc, [] => if acc = [] then [] else [acc.reverse]
  | acc, c :: rest =>
    if isPySpace c then
      if acc = [] then splitWSAux [] rest
      else acc.reverse :: splitWSAux [] rest
    else splitWSAux (c :: acc) rest

/-- Python `str.split()` with no argument. -/
def pySplitWS (s : Str) : List Str := splitWSAux [] s

/-- Python `sep.join(parts)`. -/
def joinLines (sep : Str) : List Str → Str
  | [] => []
  | [x] => x
  | x :: xs => x ++ sep ++ joinLines sep xs

/-- Python `s.startswith(p)`. -/
def pyStartswith : Str → Str → Bool
  | [], _ => true
  | _, [] => false
  | p :: ps, c :: cs => p = c && pyStartswith ps cs

/-- Python `s.endswith(p)`. -/
def pyEndswith (p s : Str) : Bool := pyStartswith p.reverse s.reverse

/-- Python `s.replace(' ', '_')`. -/
def replaceSpaceUnderscore (s : Str) : Str :=
  s.map (fun c => if c = ' ' then '_' else c)

/-- A Python dict from strings to strings: insertion-ordered association
list with unique keys. -/
abbrev Dict := List (Str × Str)

/-- Python `d[k] = v`: update in place when the key exists (keeping its
position), append otherwise. -/
def dinsert (k v : Str) : Dict → Dict
  | [] => [(k, v)]
  | (k2, v2) :: rest => if k2 = k then (k, v) :: rest else (k2, v2) :: dinsert k v rest

/-- Python `d.get(k)` as an `Option`. -/
def dlookup (k : Str) : Dict → Option Str
  | [] => none
  | (k2, v2) :: rest => if k2 = k then some v2 else dlookup k rest

/-- Python `d.get(k, fallback)`. -/
def pyGet (d : Dict) (k fallback : Str) : Str := (dlookup k d).getD fallback

/-- The keys of a dict, in order. -/
def dkeys (d : Dict) : List Str := d.map Prod.fst

/-- One line of `parse_key_value_pairs` (food_ai_server_data_pipeline.py,
lines 175-183): strip the line, skip it when blank or colon-free, else split
at the first colon and insert the stripped key and value. -/
def kvLineStep (acc : Dict) (line : Str) : Dict :=
  if pyStrip line = [] then acc
  else
    match splitFirst ':' (pyStrip line) with
    | none => acc
    | some (k, v) => dinsert (pyStrip k) (pyStrip v) acc

/-- `parse_key_value_pairs` (food_ai_server_data_pipeline.py, lines 172-185). -/
def parse_key_value_pairs (text : Str) : Dict :=
  (pySplitlines text).foldl kvLineStep []

/-- The code-fence removal of `parse_keyval_response`
(food_web_app_data_pipeline.py, lines 327-331): one wrapping pair of
"```" or "*/" markers is sliced off and the remainder stripped. -/
def stripFence (s : Str) : Str :=
  if pyStartswith (S "```") s && pyEndswith (S "```") s then
    pyStrip ((s.take (s.length - 3)).drop 3)
  else if pyStartswith (S "*/") s && pyEndswith (S "*/") s then
    pyStrip ((s.take (s.length - 2)).drop 2)
  else s

/-- One line of `parse_keyval_response` (food_web_app_data_pipeline.py,
lines 340-356): strip the line, skip it when blank or colon-free, else split
at the first colon; the key is stripped and its spaces replaced by
underscores, the value is stripped.  (The source's `len(parts) < 2` branch
is unreachable once a colon is present and is absorbed by the `none` case.) -/
def keyvalLineStep (acc : Dict) (line : Str) : Dict :=
  if pyStrip line = [] then acc
  else
    match splitFirst ':' (pyStrip line) with
    | none => acc
    | some (k, v) => dinsert (replaceSpaceUnderscore (pyStrip k)) (pyStrip v) acc

/-- `parse_keyval_response` (food_web_app_data_pipeline.py, lines 320-358):
strip the text, remove one wrapping marker pair, split on `'\n'` and fold
the per-line step over the lines. -/
def parse_keyval_response (response_text : Str) : Dict :=
  (splitOnChar '\n' (stripFence (pyStrip response_text))).foldl keyvalLineStep []

/-- One `key: value` line of the re-serialization. -/
def lineOf (p : Str × Str) : Str := p.1 ++ S ": " ++ p.2

/-- Serialization of a parsed mapping back into `key: value` lines, the
shape named by the parser-idempotence property. -/
def serializeKV (d : Dict) : Str :=
  joinLines (S "\n") (d.map lineOf)

/-- The character class kept by `clean_text` (food_web_app_data_pipeline.py,
line 366), parameterized by the alphanumeric predicate of `str.isalnum`. -/
def cleanKeep (alnum : Char → Bool) (c : Char) : Bool :=
  alnum c || (S " .,;:!?()-/").contains c

/-- The string core of `clean_text` (food_web_app_data_pipeline.py, lines
360-371): filter to the kept characters, then normalize whitespace by
splitting on whitespace runs and re-joining with single spaces. -/
def cleanTextCore (alnum : Char → Bool) (text : Str) : Str :=
  let cleaned := text.filter (cleanKeep alnum)
  joinLines (S " ") (pySplitWS cleaned)

/-- ASCII fragment of Python `str.isalnum`; the idempotence proof below is
parameterized and does not depend on the extent of the alphanumeric set. -/
def pyIsAlnumAscii (c : Char) : Bool := c.isAlpha || c.isDigit

/-- `clean_text` on strings. -/
def clean_text (t : Str) : Str := cleanTextCore pyIsAlnumAscii t

/-- `clean_text` on an arbitrary value: the `isinstance(text, str)` guard
returns any non-string input unchanged. -/
def clean_text_val {α : Type} : Str ⊕ α → Str ⊕ α
  | Sum.inl s => Sum.inl (clean_text s)
  | Sum.inr x => Sum.inr x

/-- `REQUIRED_COLUMNS` of food_ai_server_data_pipeline.py (lines 23-26);
"Image Link" is commented out in the source. -/
def REQUIRED_COLUMNS : List Str := [S "Food Name"]

/-- `DEFAULT_VALUES` of food_ai_server_data_pipeline.py (lines 30-44). -/
def DEFAULT_VALUES : Dict :=
  [ (S "Image Link", S ""), (S "Price", S "0.00"), (S "Currency", S "HKD"),
    (S "Sizing", S "Medium"), (S "Food Type", S ""), (S "Course", S ""),
    (S "Sweetness", S "5"), (S "Saltiness", S "5"), (S "Sourness", S "5"),
    (S "Bitterness", S "5"), (S "Umami", S "5"), (S "Tags", S "") ]

/-- Direct indexing `DEFAULT_VALUES[col]` for the columns of the
success-row construction; every key used there is present, so the
`""` fallback of `Option.getD` is never reached. -/
def defaultOf (col : Str) : Str := pyGet DEFAULT_VALUES col (S "")

/-- The two model chains of `create_processing_chain`, as oracle functions
from the product name to the raw text completion. -/
structure PipelineChains where
  base_info_chain : Str → Str
  characteristics_chain : Str → Str

/-- `full_pipeline` (food_ai_server_data_pipeline.py, lines 122-161):
look up `inputs["product_name"]` (a missing key raises, modelled as
`none`), invoke the base-info chain, parse it, reconcile Price, Currency,
Food Type and Course between `inputs` and the parsed base info using the
"Unknown" sentinel, invoke the characteristics chain, and return the two
raw completions.  The reconciled locals are computed exactly as in the
source, which never uses them again. -/
def full_pipeline (ch : PipelineChains) (inputs : Dict) : Option (Str × Str) :=
  match dlookup (S "product_name") inputs with
  | none => none
  | some pn =>
    let base_info_json := ch.base_info_chain pn
    let base_info := parse_key_value_pairs base_info_json
    let price0 := pyGet inputs (S "Price") (S "Unknown")
    let price := if price0 = S "Unknown" then pyGet base_info (S "Price") (S "Unknown") else price0
    let currency0 := pyGet inputs (S "Currency") (S "Unknown")
    let currency := if currency0 = S "Unknown" then pyGet base_info (S "Currency") (S "Unknown") else currency0
    let food_type0 := pyGet inputs (S "Food Type") (S "Unknown")
    let food_type := if food_type0 = S "Unknown" then pyGet base_info (S "Food Type") (S "Unknown") else food_type0
    let course0 := pyGet inputs (S "Course") (S "Unknown")
    let course := if course0 = S "Unknown" then pyGet base_info (S "Course") (S "Unknown") else course0
    let characteristics_json := ch.characteristics_chain pn
    some (base_info_json, characteristics_json)

/-- Modelled from the claim: `full_pipeline` with the dead reconciliation
of Price, Currency, Food Type and Course omitted. -/
def full_pipeline_simplified (ch : PipelineChains) (inputs : Dict) : Option (Str × Str) :=
  match dlookup (S "product_name") inputs with
  | none => none
  | some pn => some (ch.base_info_chain pn, ch.characteristics_chain pn)

/-- The success-row construction of `process_csv`
(food_ai_server_data_pipeline.py, lines 238-257): a fresh dict whose
Price, Currency, Sizing, Food Type and Course use the CSV value when the
column is present, else the parsed base info, else the default; the
characteristics use the parsed characteristics, else the default. -/
def buildFoodData (row base_info characteristics : Dict) : Dict :=
  [ (S "Product Name", pyGet row (S "Product Name") (S "")),
    (S "Image Link", pyGet row (S "Image Link") (defaultOf (S "Image Link"))),
    (S "Price", pyGet row (S "Price") (pyGet base_info (S "Price") (defaultOf (S "Price")))),
    (S "Currency", pyGet row (S "Currency") (pyGet base_info (S "Currency") (defaultOf (S "Currency")))),
    (S "Sizing", pyGet row (S "Sizing") (pyGet base_info (S "Sizing") (defaultOf (S "Sizing")))),
    (S "Food Type", pyGet row (S "Food Type") (pyGet base_info (S "Food Type") (defaultOf (S "Food Type")))),
    (S "Course", pyGet row (S "Course") (pyGet base_info (S "Course") (defaultOf (S "Course")))),
    (S "Sweetness", pyGet characteristics (S "Sweetness") (defaultOf (S "Sweetness"))),
    (S "Saltiness", pyGet characteristics (S "Saltiness") (defaultOf (S "Saltiness"))),
    (S "Sourness", pyGet characteristics (S "Sourness") (defaultOf (S "Sourness"))),
    (S "Bitterness", pyGet characteristics (S "Bitterness") (defaultOf (S "Bitterness"))),
    (S "Umami", pyGet characteristics (S "Umami") (defaultOf (S "Umami"))),
    (S "Tags", pyGet characteristics (S "Tags") (defaultOf (S "Tags"))) ]

/-- The fallback row of `process_csv` (food_ai_server_data_pipeline.py,
lines 273-277): the record's values for the required columns it contains,
then `DEFAULT_VALUES.get(col, "")` for every still-missing required
column. -/
def fallbackRow (row : Dict) : Dict :=
  let basic := REQUIRED_COLUMNS.foldl
    (fun acc col =>
      match dlookup col row with
      | some v => dinsert col v acc
      | none => acc) []
  REQUIRED_COLUMNS.foldl
    (fun acc col =>
      if (dlookup col acc).isSome then acc
      else dinsert col (pyGet DEFAULT_VALUES col (S "")) acc) basic

/-- `max_retries` of both batch drivers (food_ai_server_data_pipeline.py
line 219, food_web_app_data_pipeline.py line 402). -/
def max_retries : Nat := 3

/-- The retry loop of both batch drivers: run attempts `k`, `k+1`, ... while
fewer than `remaining` attempts are left and none has succeeded; the oracle
gives each attempt's outcome (`none` models a raised exception).  Returns
the first success, if any, together with the number of attempts made. -/
def attemptFrom {R : Type} (oracle : Nat → Option R) : Nat → Nat → Option R × Nat
  | _, 0 => (none, 0)
  | k, r + 1 =>
    match oracle k with
    | some res => (some res, 1)
    | none =>
      let p := attemptFrom oracle (k + 1) r
      (p.1, p.2 + 1)

/-- One record's pass through the retry/fallback controller. -/
def runRecord {R : Type} (oracle : Nat → Option R) : Option R × Nat :=
  attemptFrom oracle 0 max_retries

/-- Outcome of one attempt of `full_pipeline` for one record: `none` models
an exception anywhere in the attempt, `some (b, c)` the returned pair of
raw completions (the source's check that both keys are present in the
result never fails, since `full_pipeline` always returns both). -/
abbrev AttemptOracle := Nat → Option (Str × Str)

/-- The single row `process_csv` appends for one record
(food_ai_server_data_pipeline.py, lines 223-277): the success row from the
first successful attempt, or the fallback row once all retries failed. -/
def processRowCsv (row : Dict) (oracle : AttemptOracle) : Dict :=
  match (runRecord oracle).1 with
  | some r => buildFoodData row (parse_key_value_pairs r.1) (parse_key_value_pairs r.2)
  | none => fallbackRow row

/-- The accumulated `results` list of `process_csv`
(food_ai_server_data_pipeline.py, lines 212-277): one appended row per
record, in file order. -/
def process_csv_rows (records : List (Dict × AttemptOracle)) : List Dict :=
  records.foldl (fun results r => results ++ [processRowCsv r.1 r.2]) []

/-- Column set of `pd.DataFrame(list_of_dicts)`: the union of the row
dicts' keys, in order of first appearance; a row lacking one of these keys
holds NaN there, modelled by `dlookup` returning `none`. -/
def dfColumns (rows : List Dict) : List Str :=
  rows.foldl (fun cols r => cols ++ (dkeys r).filter (fun k => decide (k ∉ cols))) []

/-- The required columns structurally missing from the accumulated output
(food_ai_server_data_pipeline.py, line 283). -/
def missingRequired (rows : List Dict) : List Str :=
  REQUIRED_COLUMNS.filter (fun col => decide (col ∉ dfColumns rows))

/-- The completeness pass of `process_csv` (food_ai_server_data_pipeline.py,
lines 284-288): each structurally missing required column is set to
`DEFAULT_VALUES.get(col, "")` across all rows. -/
def fillMissing (rows : List Dict) : List Dict :=
  (missingRequired rows).foldl
    (fun rs col => rs.map (fun r => dinsert col (pyGet DEFAULT_VALUES col (S "")) r)) rows

/-- `process_csv` (food_ai_server_data_pipeline.py, lines 187-295), over the
abstract load outcome: `none` models `pd.read_csv` raising, otherwise the
loaded column list and the records paired with their attempt oracles.
Returns the boolean result together with the written output (columns and
rows), `none` when nothing is written. -/
def process_csv (loadResult : Option (List Str × List (Dict × AttemptOracle))) :
    Bool × Option (List Str × List Dict) :=
  match loadResult with
  | none => (false, none)
  | some (cols, records) =>
    if decide (S "Product Name" ∈ cols) then
      let rows := process_csv_rows records
      (true, some (dfColumns rows ++ missingRequired rows, fillMissing rows))
    else (false, none)

/-- `FOOD_PAIRING_COLUMNS` of food_web_app_data_pipeline.py (lines 23-36). -/
def FOOD_PAIRING_COLUMNS : List Str :=
  [ S "Food Pairing 1", S "Pairing Type 1", S "Course 1", S "Pairing Description 1",
    S "Food & Wine Acidity 1", S "Regional Pairing 1", S "Food 1 Image URL",
    S "Sweetness & Spiciness 1", S "Pairing Suitability 1",
    S "Food Pairing 2", S "Pairing Type 2", S "Course 2", S "Pairing Description 2",
    S "Food & Wine Acidity 2", S "Regional Pairing 2", S "Food 2 Image URL",
    S "Sweetness & Spiciness 2", S "Pairing Suitability 2",
    S "Food Pairing 3", S "Pairing Type 3", S "Course 3", S "Pairing Description 3",
    S "Food & Wine Acidity 3", S "Regional Pairing 3", S "Food 3 Image URL",
    S "Sweetness & Spiciness 3", S "Pairing Suitability 3" ]

/-- `DEFAULT_FOOD_PAIRING_VALUES` of food_web_app_data_pipeline.py
(lines 39-52). -/
def DEFAULT_FOOD_PAIRING_VALUES : Dict :=
  [ (S "Food 1 Image URL", S ""), (S "Food 2 Image URL", S ""), (S "Food 3 Image URL", S ""),
    (S "Food & Wine Acidity 1", S ""), (S "Food & Wine Acidity 2", S ""),
    (S "Food & Wine Acidity 3", S ""), (S "Regional Pairing 1", S ""),
    (S "Regional Pairing 2", S ""), (S "Regional Pairing 3", S ""),
    (S "Sweetness & Spiciness 1", S ""), (S "Sweetness & Spiciness 2", S ""),
    (S "Sweetness & Spiciness 3", S "") ]

/-- The oracles of the two per-pairing chains of
`create_food_pairing_chains`, keyed by the composed `wine_pairing` text;
`none` models a chain invocation raising. -/
structure PairingOracles where
  descResp : Str → Option Str
  notesResp : Str → Option Str

/-- `process_single_pairing` (food_web_app_data_pipeline.py, lines 225-248):
invoke the description chain and the notes chain, parse both, and tag every
key with the pairing number; any exception yields `None`. -/
def process_single_pairing (o : PairingOracles) (wine_pairing pairing_number : Str) :
    Option Dict :=
  match o.descResp wine_pairing with
  | none => none
  | some dtext =>
    match o.notesResp wine_pairing with
    | none => none
    | some ntext =>
      let ddict := parse_keyval_response dtext
      let ndict := parse_keyval_response ntext
      some ((ddict ++ ndict).foldl
        (fun acc p => dinsert (p.1 ++ S "_" ++ pairing_number) p.2 acc) [])

/-- The candidate-identifier triple the distinctness check reads for one
pairing index (food_web_app_data_pipeline.py, lines 258-263). -/
def pairingTriple (d : Dict) (i : Str) : Str × Str × Str :=
  (pyGet d (S "Food_Pairing_" ++ i) (S ""),
   pyGet d (S "Pairing_Type_" ++ i) (S ""),
   pyGet d (S "Course_" ++ i) (S ""))

/-- The three candidate-identifier triples of a parsed fan-out response. -/
def pairingsOf (d : Dict) : List (Str × Str × Str) :=
  [pairingTriple d (S "1"), pairingTriple d (S "2"), pairingTriple d (S "3")]

/-- Python `len(set(l))`: the number of distinct elements. -/
def distinctCount {α : Type} [DecidableEq α] (l : List α) : Nat := l.dedup.length

/-- The `wine_pairing` text composed for the follow-up chains of pairing
`i` (food_web_app_data_pipeline.py, lines 273-275). -/
def winePairingText (d : Dict) (i : Str) : Str :=
  S "Wine_Pairing_" ++ i ++ S ": " ++ pyGet d (S "Wine_Pairing_" ++ i) (S "") ++ S "\n" ++
    S "Pairing_Type_" ++ i ++ S ": " ++ pyGet d (S "Pairing_Type_" ++ i) (S "") ++ S "\n" ++
      S "Course_" ++ i ++ S ": " ++ pyGet d (S "Course_" ++ i) (S "")

/-- `process_food_info` (food_web_app_data_pipeline.py, lines 250-289),
given the raw fan-out response: parse it, raise (= `none`) when the three
candidate triples are not three distinct values, then run the two follow-up
chains per pairing, merging their tagged keys into the result; a failed
follow-up raises.  Any raise propagates out unchanged, with no partial
result. -/
def process_food_info (o : PairingOracles) (wine_pairings : Str) : Option Dict :=
  let d := parse_keyval_response wine_pairings
  if distinctCount (pairingsOf d) < 3 then none
  else
    [S "1", S "2", S "3"].foldl
      (fun acc i =>
        match acc with
        | none => none
        | some result =>
          match process_single_pairing o (winePairingText d i) i with
          | none => none
          | some pr => some (pr.foldl (fun a p => dinsert p.1 p.2 a) result))
      (some d)

/-- Outcome of one attempt of the food-pairing pipeline for one record. -/
abbrev WineOracle := Nat → Option Dict

/-- The generated pairing fields `process_wine_csv` copies per pairing index
(food_web_app_data_pipeline.py, lines 421-426). -/
def wineFields : List Str :=
  [S "Sweetness", S "Saltiness", S "Sourness", S "Bitterness", S "Umami", S "Tags"]

/-- The success row of `process_wine_csv` (food_web_app_data_pipeline.py,
lines 417-431): the cleaned original columns, then the cleaned generated
fields for pairing indices 1-3. -/
def buildWineRow (cols : List Str) (row result : Dict) : Dict :=
  let base := cols.foldl (fun acc col => dinsert col (clean_text (pyGet row col (S ""))) acc) []
  [S "1", S "2", S "3"].foldl
    (fun acc i =>
      wineFields.foldl
        (fun acc2 f =>
          dinsert (f ++ S " " ++ i) (clean_text (pyGet result (f ++ S "_" ++ i) (S ""))) acc2)
        acc)
    base

/-- The fallback row of `process_wine_csv` (food_web_app_data_pipeline.py,
lines 445-450): the cleaned original columns plus the cleaned defaults for
every food-pairing column. -/
def fallbackWineRow (cols : List Str) (row : Dict) : Dict :=
  let base := cols.foldl (fun acc col => dinsert col (clean_text (pyGet row col (S ""))) acc) []
  FOOD_PAIRING_COLUMNS.foldl
    (fun acc col => dinsert col (clean_text (pyGet DEFAULT_FOOD_PAIRING_VALUES col (S ""))) acc)
    base

/-- The single row `process_wine_csv` appends for one record
(food_web_app_data_pipeline.py, lines 406-452). -/
def processRowWine (cols : List Str) (row : Dict) (oracle : WineOracle) : Dict :=
  match (runRecord oracle).1 with
  | some result => buildWineRow cols row result
  | none => fallbackWineRow cols row

/-- The accumulated `result_data` list of `process_wine_csv`
(food_web_app_data_pipeline.py, lines 393-452): one appended row per
record, in file order. -/
def process_wine_rows (cols : List Str) (records : List (Dict × WineOracle)) : List Dict :=
  records.foldl (fun acc r => acc ++ [processRowWine cols r.1 r.2]) []

/-- The final cleaning pass of `process_wine_csv`
(food_web_app_data_pipeline.py, lines 458-460): `clean_text` applied to
every present cell (a NaN cell is a non-string and passes through
unchanged). -/
def wineFinalRows (cols : List Str) (records : List (Dict × WineOracle)) : List Dict :=
  (process_wine_rows cols records).map (fun r => r.map (fun p => (p.1, clean_text p.2)))

example : pyStrip (S "  a b  ") = S "a b" := by decide

theorem foldl_map_step_length (ms : List Str) (rows : List Dict) (f : Str → Dict → Dict) :
    (ms.foldl (fun rs col => rs.map (f col)) rows).length = rows.length := by
  induction ms generalizing rows with
  | nil => rfl
  | cons c ms ih => simpa using ih (rows.map (f c))

theorem fillMissing_length (rows : List Dict) :
    (fillMissing rows).length = rows.length := by
  unfold fillMissing
  exact foldl_map_step_length (missingRequired rows) rows
    (fun col r => dinsert col (pyGet DEFAULT_VALUES col (S "")) r)

theorem foldl_append_eq_map {α β : Type} (f : α → β) (l : List α) (acc : List β) :
    l.foldl (fun res a => res ++ [f a]) acc = acc ++ l.map f := by
  induction l generalizing acc with
  | nil => simp
  | cons a l ih => simp [ih]

theorem process_csv_rows_eq_map (records : List (Dict × AttemptOracle)) :
    process_csv_rows records = records.map (fun r => processRowCsv r.1 r.2) := by
  simpa using foldl_append_eq_map (fun r : Dict × AttemptOracle => processRowCsv r.1 r.2) records []

theorem process_wine_rows_eq_map (cols : List Str) (records : List (Dict × WineOracle)) :
    process_wine_rows cols records = records.map (fun r => processRowWine cols r.1 r.2) := by
  simpa using
    foldl_append_eq_map (fun r : Dict × WineOracle => processRowWine cols r.1 r.2) records []

/-- C1: for every input batch of M records (including M = 0), each batch
driver appends exactly one output row per input record -- the success row
when some attempt of the record's pipeline succeeds, the fallback row when
retries are exhausted -- so the accumulated output has exactly M rows, the
i-th output row coming from the i-th input record. -/
theorem batch_row_count_preserved (records : List (Dict × AttemptOracle))
    (cols : List Str) (wrecords : List (Dict × WineOracle)) :
    (process_csv_rows records).length = records.length ∧
    (∀ i, (process_csv_rows records).get? i
        = (records.get? i).map (fun r => processRowCsv r.1 r.2)) ∧
    (fillMissing (process_csv_rows records)).length = records.length ∧
    (process_wine_rows cols wrecords).length = wrecords.length ∧
    (∀ i, (process_wine_rows cols wrecords).get? i
        = (wrecords.get? i).map (fun r => processRowWine cols r.1 r.2)) ∧
    (wineFinalRows cols wrecords).length = wrecords.length := by
  refine ⟨?_, ?_, ?_, ?_, ?_, ?_⟩
  · rw [process_csv_rows_eq_map]; simp
  · intro i; rw [process_csv_rows_eq_map]; simp
  · rw [fillMissing_length, process_csv_rows_eq_map]; simp
  · rw [process_wine_rows_eq_map]; simp
  · intro i; rw [process_wine_rows_eq_map]; simp
  · unfold wineFinalRows
    rw [process_wine_rows_eq_map]; simp

theorem attemptFrom_all_fail {R : Type} (oracle : Nat → Option R) :
    ∀ r k, (∀ j, j < r → oracle (k + j) = none) → attemptFrom oracle k r = (none, r) := by
  intro r
  induction r with
  | zero => intro k h; rfl
  | succ r ih =>
    intro k h
    have h0 : oracle k = none := by simpa using h 0 (Nat.succ_pos r)
    have hrest : attemptFrom oracle (k + 1) r = (none, r) := by
      refine ih (k + 1) (fun j hj => ?_)
      have := h (j + 1) (Nat.succ_lt_succ hj)
      simpa [Nat.add_assoc, Nat.add_comm 1 j] using this
    simp [attemptFrom, h0, hrest]

theorem fallbackRow_eq (row : Dict) :
    fallbackRow row
      = [(S "Food Name", (dlookup (S "Food Name") row).getD (pyGet DEFAULT_VALUES (S "Food Name") (S "")))] := by
  unfold fallbackRow REQUIRED_COLUMNS
  cases h : dlookup (S "Food Name") row <;>
    simp [h, dinsert, dlookup, pyGet]

/-- C4: a record whose stage chain fails on every attempt makes exactly
`max_retries` = 3 attempts -- the outcome is fixed by the first three
oracle answers alone, so no 4th call is consulted -- and the appended row
is the fallback row built from the existing record's required-column
values plus the default table, containing every required column.  The
retry loop of `process_wine_csv` behaves identically. -/
theorem retry_exhaustion_fallback (row : Dict) (oracle : AttemptOracle)
    (cols : List Str) (wrow : Dict) (woracle : WineOracle)
    (h : ∀ k, k < max_retries → oracle k = none)
    (hw : ∀ k, k < max_retries → woracle k = none) :
    runRecord oracle = (none, 3) ∧
    processRowCsv row oracle = fallbackRow row ∧
    processRowWine cols wrow woracle = fallbackWineRow cols wrow ∧
    ∀ col ∈ REQUIRED_COLUMNS,
      dlookup col (fallbackRow row)
        = some ((dlookup col row).getD (pyGet DEFAULT_VALUES col (S ""))) := by
  have hr : runRecord oracle = (none, 3) :=
    attemptFrom_all_fail oracle max_retries 0 (fun j hj => by simpa using h j hj)
  have hwr : runRecord woracle = (none, 3) :=
    attemptFrom_all_fail woracle max_retries 0 (fun j hj => by simpa using hw j hj)
  refine ⟨hr, ?_, ?_, ?_⟩
  · unfold processRowCsv
    rw [hr]
  · unfold processRowWine
    rw [hwr]
  · intro col hcol
    have : col = S "Food Name" := by simpa [REQUIRED_COLUMNS] using hcol
    subst this
    rw [fallbackRow_eq]
    simp [dlookup]

theorem retry_exhaustion_fallback_witness :
    runRecord (fun _ => (none : Option (Str × Str))) = (none, 3) ∧
    processRowCsv [] (fun _ => none) = fallbackRow [] ∧
    processRowWine [] [] (fun _ => none) = fallbackWineRow [] [] ∧
    dlookup (S "Food Name") (fallbackRow [])
      = some ((dlookup (S "Food Name") ([] : Dict)).getD (pyGet DEFAULT_VALUES (S "Food Name") (S ""))) := by
  have h := retry_exhaustion_fallback [] (fun _ => none) [] [] (fun _ => none)
    (fun k hk => rfl) (fun k hk => rfl)
  exact ⟨h.1, h.2.1, h.2.2.1, h.2.2.2 (S "Food Name") (by decide)⟩

/-- The five columns the reconciliation policy of the success row applies
to, as named by the claim. -/
def reconciledColumns : List Str :=
  [S "Price", S "Currency", S "Sizing", S "Food Type", S "Course"]

/-- C2 counterexample: a record whose existing Price is the "Unknown"
sentinel, with model-derived Price "7", yields "Unknown" -- not "7" as the
claim states -- because the success row uses the CSV value whenever the
column is present, with no sentinel check. -/
theorem reconciler_sentinel_counterexample :
    dlookup (S "Price")
        (processRowCsv [(S "Product Name", S "X"), (S "Price", S "Unknown")]
          (fun _ => some (S "Price: 7", S "")))
      = some (S "Unknown") ∧
    dlookup (S "Price")
        (processRowCsv [(S "Product Name", S "X"), (S "Price", S "Unknown")]
          (fun _ => some (S "Price: 7", S "")))
      ≠ some (S "7") := by
  constructor
  · rfl
  · decide

/-- C2 amended: for every record and every reconciled output column
(Price, Currency, Sizing, Food Type, Course), if the existing record
CONTAINS the column its value is emitted verbatim -- even when it is the
"Unknown"/empty sentinel; otherwise the first stage mapping's value for
the key is emitted; otherwise the default-table value. -/
theorem reconciler_priority_presence_based (row base_info characteristics : Dict)
    (col : Str) (h : col ∈ reconciledColumns) :
    dlookup col (buildFoodData row base_info characteristics)
      = some ((dlookup col row).getD ((dlookup col base_info).getD (defaultOf col))) := by
  fin_cases h <;> rfl

theorem reconciler_priority_presence_based_witness :
    dlookup (S "Price") (buildFoodData [] [(S "Price", S "7")] [])
      = some ((dlookup (S "Price") ([] : Dict)).getD
          ((dlookup (S "Price") [(S "Price", S "7")]).getD (defaultOf (S "Price")))) :=
  reconciler_priority_presence_based [] [(S "Price", S "7")] [] (S "Price") (by decide)

/-- C3: if the three candidate pairing identifier triples read from a
parsed fan-out response are not pairwise distinct, `process_food_info`
raises (returns `none`) with no partial result; if they are pairwise
distinct, the distinctness gate `len(set(pairings)) < 3` does not fire. -/
theorem distinctness_gate (o : PairingOracles) (resp : Str) :
    (¬ (pairingsOf (parse_keyval_response resp)).Nodup
      → process_food_info o resp = none) ∧
    ((pairingsOf (parse_keyval_response resp)).Nodup
      → ¬ distinctCount (pairingsOf (parse_keyval_response resp)) < 3) := by
  have hlen : (pairingsOf (parse_keyval_response resp)).length = 3 := rfl
  constructor
  · intro hnd
    have hlt : distinctCount (pairingsOf (parse_keyval_response resp)) < 3 := by
      unfold distinctCount
      rcases Nat.lt_or_ge (pairingsOf (parse_keyval_response resp)).dedup.length 3 with h3 | h3
      · exact h3
      · exfalso
        have hle := (pairingsOf (parse_keyval_response resp)).dedup_sublist.length_le
        have heq : (pairingsOf (parse_keyval_response resp)).dedup.length
            = (pairingsOf (parse_keyval_response resp)).length :=
          le_antisymm hle (hlen ▸ h3)
        have hd := (pairingsOf (parse_keyval_response resp)).dedup_sublist.eq_of_length heq
        exact hnd (hd ▸ (pairingsOf (parse_keyval_response resp)).nodup_dedup)
    simp [process_food_info, hlt]
  · intro hnd
    simp [distinctCount, hnd.dedup, hlen]

theorem distinctness_gate_witness :
    process_food_info ⟨fun _ => none, fun _ => none⟩ (S "no pairings here") = none :=
  (distinctness_gate ⟨fun _ => none, fun _ => none⟩ (S "no pairings here")).1 (by decide)

/-- C8: when the input file cannot be loaded, or the loaded table lacks the
mandatory identifying column "Product Name", `process_csv` aborts
immediately with result `false` and writes no output. -/
theorem load_error_aborts (loadResult : Option (List Str × List (Dict × AttemptOracle)))
    (h : loadResult = none ∨
      ∃ cols records, loadResult = some (cols, records) ∧ S "Product Name" ∉ cols) :
    process_csv loadResult = (false, none) := by
  rcases h with h | ⟨cols, records, rfl, hc⟩
  · subst h; rfl
  · simp [process_csv, hc]

theorem load_error_aborts_witness :
    process_csv none = (false, none) :=
  load_error_aborts none (Or.inl rfl)

/-- The first character, if any, is not Python whitespace. -/
def headOk : Str → Bool
  | [] => true
  | c :: _ => !isPySpace c

/-- The last character, if any, is not Python whitespace. -/
def lastOk : Str → Bool
  | [] => true
  | [c] => !isPySpace c
  | _ :: rest => lastOk rest

theorem lastOk_cons (c : Char) (t : Str) (h : t ≠ []) : lastOk (c :: t) = lastOk t := by
  cases t with
  | nil => exact absurd rfl h
  | cons d t2 => rfl

theorem headOk_append (a b : Str) (h : a ≠ []) : headOk (a ++ b) = headOk a := by
  cases a with
  | nil => exact absurd rfl h
  | cons c a2 => rfl

theorem lastOk_append (a b : Str) (h : b ≠ []) : lastOk (a ++ b) = lastOk b := by
  induction a with
  | nil => rfl
  | cons c a2 ih =>
    have hne : a2 ++ b ≠ [] := by
      simp [h]
    rw [List.cons_append, lastOk_cons c (a2 ++ b) hne, ih]

theorem pyStripLeft_eq_self (s : Str) (h : headOk s = true) : pyStripLeft s = s := by
  cases s with
  | nil => rfl
  | cons c rest =>
    have : isPySpace c = false := by simpa [headOk] using h
    simp [pyStripLeft, this]

theorem headOk_pyStripLeft (s : Str) : headOk (pyStripLeft s) = true := by
  induction s with
  | nil => rfl
  | cons c rest ih =>
    by_cases h : isPySpace c
    · simpa [pyStripLeft, h] using ih
    · simp [pyStripLeft, h, headOk]

theorem pyStripRight_eq_self (s : Str) (h : lastOk s = true) : pyStripRight s = s := by
  induction s with
  | nil => rfl
  | cons c rest ih =>
    cases rest with
    | nil =>
      have : isPySpace c = false := by simpa [lastOk] using h
      simp [pyStripRight, this]
    | cons d rest2 =>
      have h2 : lastOk (d :: rest2) = true := by
        rwa [lastOk_cons c (d :: rest2) (by simp)] at h
      rw [pyStripRight, ih h2]

theorem lastOk_pyStripRight (s : Str) : lastOk (pyStripRight s) = true := by
  induction s with
  | nil => rfl
  | cons c rest ih =>
    rw [pyStripRight]
    cases h : pyStripRight rest with
    | nil =>
      by_cases hc : isPySpace c <;> simp [hc, lastOk]
    | cons d r2 =>
      rw [lastOk_cons c (d :: r2) (by simp)]
      rw [h] at ih
      exact ih

theorem headOk_pyStripRight (s : Str) (h : headOk s = true) : headOk (pyStripRight s) = true := by
  cases s with
  | nil => rfl
  | cons c rest =>
    have hc : isPySpace c = false := by simpa [headOk] using h
    rw [pyStripRight]
    cases pyStripRight rest with
    | nil => simp [hc, headOk]
    | cons d r2 => simp [headOk, hc]

theorem pyStrip_clean (s : Str) (h1 : headOk s = true) (h2 : lastOk s = true) :
    pyStrip s = s := by
  rw [pyStrip, pyStripLeft_eq_self s h1, pyStripRight_eq_self s h2]

theorem headOk_pyStrip (s : Str) : headOk (pyStrip s) = true :=
  headOk_pyStripRight _ (headOk_pyStripLeft s)

theorem lastOk_pyStrip (s : Str) : lastOk (pyStrip s) = true :=
  lastOk_pyStripRight _

theorem mem_pyStripLeft (c : Char) (s : Str) (h : c ∈ pyStripLeft s) : c ∈ s := by
  induction s with
  | nil => simp [pyStripLeft] at h
  | cons d rest ih =>
    by_cases hd : isPySpace d
    · simp [pyStripLeft, hd] at h
      exact List.mem_cons_of_mem d (ih h)
    · simpa [pyStripLeft, hd] using h

theorem mem_pyStripRight (c : Char) (s : Str) (h : c ∈ pyStripRight s) : c ∈ s := by
  induction s with
  | nil => simp [pyStripRight] at h
  | cons d rest ih =>
    rw [pyStripRight] at h
    cases h2 : pyStripRight rest with
    | nil =>
      rw [h2] at h
      by_cases hd : isPySpace d
      · simp [hd] at h
      · simp [hd] at h
        simp [h]
    | cons e r2 =>
      rw [h2] at h
      rcases List.mem_cons.1 h with h3 | h3
      · simp [h3]
      · have hmem : c ∈ pyStripRight rest := by
          rw [h2]; exact h3
        exact List.mem_cons_of_mem d (ih hmem)

theorem mem_pyStrip (c : Char) (s : Str) (h : c ∈ pyStrip s) : c ∈ s :=
  mem_pyStripLeft c s (mem_pyStripRight c (pyStripLeft s) h)

theorem pyStripRight_snoc_ws (a : Str) (c : Char) (h : isPySpace c = true) :
    pyStripRight (a ++ [c]) = pyStripRight a := by
  induction a with
  | nil => simp [pyStripRight, h]
  | cons d a2 ih =>
    rw [List.cons_append, pyStripRight, ih, pyStripRight]

theorem pyStripRight_ne_nil (s : Str) (h : ∃ c ∈ s, isPySpace c = false) :
    pyStripRight s ≠ [] := by
  induction s with
  | nil => simp at h
  | cons d rest ih =>
    rw [pyStripRight]
    cases h2 : pyStripRight rest with
    | nil =>
      rcases h with ⟨c, hc, hcs⟩
      rcases List.mem_cons.1 hc with h3 | h3
      · subst h3; simp [hcs]
      · exact absurd h2 (ih ⟨c, h3, hcs⟩)
    | cons e r2 => simp

theorem pyStripRight_append_nonspace (a b : Str) (h : ∃ c ∈ b, isPySpace c = false) :
    pyStripRight (a ++ b) = a ++ pyStripRight b := by
  induction a with
  | nil => rfl
  | cons d a2 ih =>
    rw [List.cons_append, pyStripRight, ih]
    have : a2 ++ pyStripRight b ≠ [] := by
      have := pyStripRight_ne_nil b h
      simp [this]
    cases h2 : a2 ++ pyStripRight b with
    | nil => exact absurd h2 this
    | cons e r2 => simp [h2]

theorem pyStripRight_cons_of_ne_nil (c : Char) (s : Str) (h : pyStripRight s ≠ []) :
    pyStripRight (c :: s) = c :: pyStripRight s := by
  rw [pyStripRight]
  cases h2 : pyStripRight s with
  | nil => exact absurd h2 h
  | cons d r2 => rfl

theorem splitFirst_append_first (sep : Char) (k v : Str) (h : sep ∉ k) :
    splitFirst sep (k ++ sep :: v) = some (k, v) := by
  induction k with
  | nil => simp [splitFirst]
  | cons c k2 ih =>
    have hc : ¬ c = sep := fun hh => h (hh ▸ List.mem_cons_self c k2)
    have hk : sep ∉ k2 := fun hh => h (List.mem_cons_of_mem c hh)
    simp [splitFirst, hc, ih hk]

theorem splitFirst_eq_some (sep : Char) (s a b : Str) (h : splitFirst sep s = some (a, b)) :
    s = a ++ sep :: b ∧ sep ∉ a := by
  induction s generalizing a with
  | nil => simp [splitFirst] at h
  | cons c rest ih =>
    by_cases hc : c = sep
    · subst hc
      simp [splitFirst] at h
      obtain ⟨rfl, rfl⟩ := h
      simp
    · rw [splitFirst] at h
      simp only [if_neg hc] at h
      cases h2 : splitFirst sep rest with
      | none => rw [h2] at h; exact absurd h (by simp)
      | some p =>
        obtain ⟨a2, b2⟩ := p
        rw [h2] at h
        simp only [Option.map_some', Option.some.injEq] at h
        have ha : a = c :: a2 := (Prod.ext_iff.1 h.symm).1
        have hb : b = b2 := (Prod.ext_iff.1 h.symm).2
        subst ha
        subst hb
        obtain ⟨hs, hna⟩ := ih a2 h2
        constructor
        · rw [hs]; rfl
        · intro hmem
          rcases List.mem_cons.1 hmem with h3 | h3
          · exact hc h3.symm
          · exact hna h3

theorem splitOnChar_ne_nil (sep : Char) (s : Str) : splitOnChar sep s ≠ [] := by
  cases s with
  | nil => simp [splitOnChar]
  | cons c rest =>
    by_cases h : c = sep
    · simp [splitOnChar, h]
    · rw [splitOnChar]
      simp only [if_neg h]
      cases splitOnChar sep rest <;> simp

theorem splitOnChar_of_not_mem (sep : Char) (s : Str) (h : sep ∉ s) :
    splitOnChar sep s = [s] := by
  induction s with
  | nil => rfl
  | cons c rest ih =>
    have hc : ¬ c = sep := fun hh => h (hh ▸ List.mem_cons_self c rest)
    have hr : sep ∉ rest := fun hh => h (List.mem_cons_of_mem c hh)
    rw [splitOnChar]
    simp only [if_neg hc, ih hr]

theorem splitOnChar_append (sep : Char) (a b : Str) (h : sep ∉ a) :
    splitOnChar sep (a ++ sep :: b) = a :: splitOnChar sep b := by
  induction a with
  | nil => simp [splitOnChar]
  | cons c a2 ih =>
    have hc : ¬ c = sep := fun hh => h (hh ▸ List.mem_cons_self c a2)
    have ha : sep ∉ a2 := fun hh => h (List.mem_cons_of_mem c hh)
    rw [List.cons_append, splitOnChar]
    simp only [if_neg hc, ih ha]

theorem mem_splitOnChar_not_sep (sep : Char) (s : Str) :
    ∀ l ∈ splitOnChar sep s, sep ∉ l := by
  induction s with
  | nil =>
    intro l hl
    simp [splitOnChar] at hl
    simp [hl]
  | cons c rest ih =>
    intro l hl
    by_cases h : c = sep
    · subst h
      simp only [splitOnChar, if_pos rfl] at hl
      rcases List.mem_cons.1 hl with h2 | h2
      · simp [h2]
      · exact ih l h2
    · rw [splitOnChar] at hl
      simp only [if_neg h] at hl
      cases h2 : splitOnChar sep rest with
      | nil => exact absurd h2 (splitOnChar_ne_nil sep rest)
      | cons r ls =>
        rw [h2] at hl
        rcases List.mem_cons.1 hl with h3 | h3
        · subst h3
          intro hmem
          rcases List.mem_cons.1 hmem with h4 | h4
          · exact h h4.symm
          · exact ih r (h2 ▸ List.mem_cons_self r ls) h4
        · exact ih l (h2 ▸ List.mem_cons_of_mem r h3)

theorem collapseCrLf_cons_noterm (c : Char) (s : Str) (h : isLineTerm c = false) :
    collapseCrLf (c :: s) = c :: collapseCrLf s := by
  cases s with
  | nil => rfl
  | cons d rest =>
    have hc : ¬ c = '\r' := by
      intro hh; subst hh; simp [isLineTerm] at h
    simp [collapseCrLf, hc]

theorem collapseCrLf_cons_lf (s : Str) : collapseCrLf ('\n' :: s) = '\n' :: collapseCrLf s := by
  cases s with
  | nil => rfl
  | cons d rest => simp [collapseCrLf]

theorem collapseCrLf_append_noterm (a b : Str) (h : ∀ c ∈ a, isLineTerm c = false) :
    collapseCrLf (a ++ b) = a ++ collapseCrLf b := by
  induction a with
  | nil => rfl
  | cons c a2 ih =>
    rw [List.cons_append, collapseCrLf_cons_noterm c (a2 ++ b) (h c (List.mem_cons_self c a2)),
      ih (fun d hd => h d (List.mem_cons_of_mem c hd)), List.cons_append]

theorem splitlinesAux_noterm (line : Str) (h : ∀ c ∈ line, isLineTerm c = false) :
    ∀ acc : Str, splitlinesAux acc line
      = if acc.reverse ++ line = [] then [] else [acc.reverse ++ line] := by
  induction line with
  | nil =>
    intro acc
    by_cases ha : acc = [] <;> simp [splitlinesAux, ha]
  | cons c line2 ih =>
    intro acc
    have hc : isLineTerm c = false := h c (List.mem_cons_self c line2)
    rw [splitlinesAux]
    simp only [hc, Bool.false_eq_true, if_false]
    rw [ih (fun d hd => h d (List.mem_cons_of_mem c hd)) (c :: acc)]
    simp

theorem splitlinesAux_append (line : Str) (h : ∀ c ∈ line, isLineTerm c = false)
    (b : Str) : ∀ acc : Str, splitlinesAux acc (line ++ '\n' :: b)
      = (acc.reverse ++ line) :: splitlinesAux [] b := by
  induction line with
  | nil =>
    intro acc
    simp [splitlinesAux, isLineTerm]
  | cons c line2 ih =>
    intro acc
    have hc : isLineTerm c = false := h c (List.mem_cons_self c line2)
    rw [List.cons_append, splitlinesAux]
    simp only [hc, Bool.false_eq_true, if_false]
    rw [ih (fun d hd => h d (List.mem_cons_of_mem c hd)) (c :: acc)]
    simp

theorem mem_splitlinesAux_noterm (s : Str) :
    ∀ acc : Str, (∀ c ∈ acc, isLineTerm c = false) →
      ∀ l ∈ splitlinesAux acc s, ∀ c ∈ l, isLineTerm c = false := by
  induction s with
  | nil =>
    intro acc hacc l hl
    by_cases ha : acc = []
    · simp [splitlinesAux, ha] at hl
    · simp [splitlinesAux, ha] at hl
      subst hl
      intro c hc
      exact hacc c (List.mem_reverse.1 hc)
  | cons d rest ih =>
    intro acc hacc l hl
    rw [splitlinesAux] at hl
    by_cases hd : isLineTerm d
    · simp only [hd, if_true] at hl
      rcases List.mem_cons.1 hl with h2 | h2
      · subst h2
        intro c hc
        exact hacc c (List.mem_reverse.1 hc)
      · exact ih [] (by simp) l h2
    · simp only [hd, Bool.false_eq_true, if_false] at hl
      refine ih (d :: acc) ?_ l hl
      intro c hc
      rcases List.mem_cons.1 hc with h2 | h2
      · subst h2; simpa using hd
      · exact hacc c h2

theorem mem_pySplitlines_noterm (t : Str) :
    ∀ l ∈ pySplitlines t, ∀ c ∈ l, isLineTerm c = false := by
  intro l hl
  exact mem_splitlinesAux_noterm (collapseCrLf t) [] (by simp) l hl

theorem dlookup_dinsert (k k2 v : Str) (d : Dict) :
    dlookup k (dinsert k2 v d) = if k2 = k then some v else dlookup k d := by
  induction d with
  | nil => simp [dinsert, dlookup]
  | cons p rest ih =>
    obtain ⟨k3, v3⟩ := p
    by_cases h : k3 = k2 <;> by_cases h2 : k2 = k <;> by_cases h3 : k3 = k <;>
      simp_all [dinsert, dlookup]

theorem mem_dinsert (p : Str × Str) (k v : Str) (d : Dict) (h : p ∈ dinsert k v d) :
    p = (k, v) ∨ p ∈ d := by
  induction d with
  | nil => simpa [dinsert] using h
  | cons q rest ih =>
    obtain ⟨k2, v2⟩ := q
    rw [dinsert] at h
    by_cases h2 : k2 = k
    · simp only [if_pos h2] at h
      rcases List.mem_cons.1 h with h3 | h3
      · exact Or.inl h3
      · exact Or.inr (List.mem_cons_of_mem _ h3)
    · simp only [if_neg h2] at h
      rcases List.mem_cons.1 h with h3 | h3
      · exact Or.inr (h3 ▸ List.mem_cons_self _ _)
      · rcases ih h3 with h4 | h4
        · exact Or.inl h4
        · exact Or.inr (List.mem_cons_of_mem _ h4)

theorem dkeys_dinsert (k v : Str) (d : Dict) :
    dkeys (dinsert k v d) = if k ∈ dkeys d then dkeys d else dkeys d ++ [k] := by
  induction d with
  | nil => simp [dinsert, dkeys]
  | cons q rest ih =>
    obtain ⟨k2, v2⟩ := q
    by_cases h2 : k2 = k
    · subst h2
      simp [dinsert, dkeys]
    · have hne : ¬ k = k2 := fun hh => h2 hh.symm
      rw [dinsert]
      simp only [if_neg h2]
      show k2 :: dkeys (dinsert k v rest) = _
      rw [ih]
      by_cases h3 : k ∈ List.map Prod.fst rest <;> simp [dkeys, h3, hne]

theorem nodup_dkeys_dinsert (k v : Str) (d : Dict) (h : (dkeys d).Nodup) :
    (dkeys (dinsert k v d)).Nodup := by
  rw [dkeys_dinsert]
  by_cases h2 : k ∈ dkeys d
  · simpa [h2] using h
  · simp [h2, List.nodup_append, h]

theorem dinsert_of_not_mem (k v : Str) (d : Dict) (h : k ∉ dkeys d) :
    dinsert k v d = d ++ [(k, v)] := by
  induction d with
  | nil => rfl
  | cons q rest ih =>
    obtain ⟨k2, v2⟩ := q
    have h2 : ¬ k2 = k := by
      intro hh
      exact h (hh ▸ List.mem_cons_self k2 (dkeys rest))
    have h3 : k ∉ dkeys rest := fun hh => h (List.mem_cons_of_mem k2 hh)
    simp [dinsert, h2, ih h3]

theorem foldl_dinsert_eq_append :
    ∀ (d acc : Dict), (dkeys acc ++ dkeys d).Nodup →
      d.foldl (fun a p => dinsert p.1 p.2 a) acc = acc ++ d := by
  intro d
  induction d with
  | nil => intro acc h; simp
  | cons p d2 ih =>
    intro acc h
    obtain ⟨k, v⟩ := p
    have hdisj : (dkeys acc).Disjoint (dkeys ((k, v) :: d2)) :=
      List.disjoint_of_nodup_append h
    have hk : k ∉ dkeys acc := fun hmem => hdisj hmem (by simp [dkeys])
    have hstep : dinsert k v acc = acc ++ [(k, v)] := dinsert_of_not_mem k v acc hk
    simp only [List.foldl_cons, hstep]
    have hnd : (dkeys (acc ++ [(k, v)]) ++ dkeys d2).Nodup := by
      have heq : dkeys (acc ++ [(k, v)]) ++ dkeys d2 = dkeys acc ++ dkeys ((k, v) :: d2) := by
        simp [dkeys]
      rw [heq]
      exact h
    rw [ih (acc ++ [(k, v)]) hnd]
    simp

/-- Every character of the string is a non-terminator. -/
def noTermStr (s : Str) : Prop := ∀ c ∈ s, isLineTerm c = false

/-- Shape invariant of the pairs produced by `parse_key_value_pairs`:
key and value are stripped (no leading/trailing whitespace), the key holds
no colon, and neither holds a line terminator. -/
def wfPairA (p : Str × Str) : Prop :=
  headOk p.1 = true ∧ lastOk p.1 = true ∧ (':') ∉ p.1 ∧ noTermStr p.1 ∧
    headOk p.2 = true ∧ lastOk p.2 = true ∧ noTermStr p.2

/-- Shape invariant of the pairs produced by `parse_keyval_response`:
additionally the key holds no space (each was replaced by an underscore),
and only `'\n'` is relevant as a terminator since the web parser splits on
`'\n'` alone. -/
def wfPairW (p : Str × Str) : Prop :=
  headOk p.1 = true ∧ lastOk p.1 = true ∧ (':') ∉ p.1 ∧ ('\n') ∉ p.1 ∧ (' ') ∉ p.1 ∧
    headOk p.2 = true ∧ lastOk p.2 = true ∧ ('\n') ∉ p.2

theorem not_space_of_mem_replaceSpaceUnderscore (c : Char) (s : Str)
    (h : c ∈ replaceSpaceUnderscore s) : c ≠ ' ' := by
  rw [replaceSpaceUnderscore] at h
  rcases List.mem_map.1 h with ⟨d, hd, hmap⟩
  by_cases h2 : d = ' '
  · subst h2
    simp at hmap
    subst hmap
    decide
  · simp [h2] at hmap
    subst hmap
    exact h2

theorem mem_of_mem_replaceSpaceUnderscore (c : Char) (s : Str)
    (h : c ∈ replaceSpaceUnderscore s) (hc : c ≠ '_') : c ∈ s := by
  rw [replaceSpaceUnderscore] at h
  rcases List.mem_map.1 h with ⟨d, hd, hmap⟩
  by_cases h2 : d = ' '
  · subst h2
    simp at hmap
    exact absurd hmap.symm hc
  · simp [h2] at hmap
    subst hmap
    exact hd

theorem replaceSpaceUnderscore_eq_self (s : Str) (h : (' ') ∉ s) :
    replaceSpaceUnderscore s = s := by
  induction s with
  | nil => rfl
  | cons c rest ih =>
    have hc : ¬ c = ' ' := fun hh => h (hh ▸ List.mem_cons_self c rest)
    have hr : (' ') ∉ rest := fun hh => h (List.mem_cons_of_mem c hh)
    simp [replaceSpaceUnderscore, hc] at ih ⊢
    exact ih hr

theorem headOk_replaceSpaceUnderscore (s : Str) (h : headOk s = true) :
    headOk (replaceSpaceUnderscore s) = true := by
  cases s with
  | nil => rfl
  | cons c rest =>
    by_cases h2 : c = ' '
    · subst h2
      simp [replaceSpaceUnderscore, headOk, isPySpace]
    · have : isPySpace c = false := by simpa [headOk] using h
      simp [replaceSpaceUnderscore, headOk, h2, this]

theorem lastOk_replaceSpaceUnderscore (s : Str) (h : lastOk s = true) :
    lastOk (replaceSpaceUnderscore s) = true := by
  induction s with
  | nil => rfl
  | cons c rest ih =>
    cases rest with
    | nil =>
      by_cases h2 : c = ' '
      · subst h2
        simp [replaceSpaceUnderscore, lastOk, isPySpace]
      · have : isPySpace c = false := by simpa [lastOk] using h
        simp [replaceSpaceUnderscore, lastOk, h2, this]
    | cons d rest2 =>
      have h2 : lastOk (d :: rest2) = true := by
        rwa [lastOk_cons c (d :: rest2) (by simp)] at h
      have h3 : replaceSpaceUnderscore (d :: rest2) ≠ [] := by
        simp [replaceSpaceUnderscore]
      have := ih h2
      rw [replaceSpaceUnderscore] at this ⊢
      simp only [List.map_cons]
      rw [lastOk_cons _ _ (by simp)]
      exact this

theorem kvLineStep_cases (acc : Dict) (line : Str) :
    kvLineStep acc line = acc ∨
    ∃ k0 v0, splitFirst ':' (pyStrip line) = some (k0, v0) ∧
      kvLineStep acc line = dinsert (pyStrip k0) (pyStrip v0) acc := by
  unfold kvLineStep
  by_cases h : pyStrip line = []
  · left; simp [h]
  · cases h2 : splitFirst ':' (pyStrip line) with
    | none => left; simp [h, h2]
    | some p =>
      obtain ⟨k0, v0⟩ := p
      right
      exact ⟨k0, v0, rfl, by simp [h, h2]⟩

theorem keyvalLineStep_cases (acc : Dict) (line : Str) :
    keyvalLineStep acc line = acc ∨
    ∃ k0 v0, splitFirst ':' (pyStrip line) = some (k0, v0) ∧
      keyvalLineStep acc line = dinsert (replaceSpaceUnderscore (pyStrip k0)) (pyStrip v0) acc := by
  unfold keyvalLineStep
  by_cases h : pyStrip line = []
  · left; simp [h]
  · cases h2 : splitFirst ':' (pyStrip line) with
    | none => left; simp [h, h2]
    | some p =>
      obtain ⟨k0, v0⟩ := p
      right
      exact ⟨k0, v0, rfl, by simp [h, h2]⟩

theorem kv_new_pair_wf (line k0 v0 : Str) (hline : noTermStr line)
    (h : splitFirst ':' (pyStrip line) = some (k0, v0)) :
    wfPairA (pyStrip k0, pyStrip v0) := by
  obtain ⟨hs, hna⟩ := splitFirst_eq_some ':' (pyStrip line) k0 v0 h
  have hk0 : ∀ c ∈ k0, c ∈ line := by
    intro c hc
    refine mem_pyStrip c line ?_
    rw [hs]
    exact List.mem_append_left _ hc
  have hv0 : ∀ c ∈ v0, c ∈ line := by
    intro c hc
    refine mem_pyStrip c line ?_
    rw [hs]
    exact List.mem_append_right _ (List.mem_cons_of_mem _ hc)
  refine ⟨headOk_pyStrip k0, lastOk_pyStrip k0, ?_, ?_, headOk_pyStrip v0, lastOk_pyStrip v0, ?_⟩
  · intro hmem
    exact hna (mem_pyStrip ':' k0 hmem)
  · intro c hc
    exact hline c (hk0 c (mem_pyStrip c k0 hc))
  · intro c hc
    exact hline c (hv0 c (mem_pyStrip c v0 hc))

theorem keyval_new_pair_wf (line k0 v0 : Str) (hline : ('\n') ∉ line)
    (h : splitFirst ':' (pyStrip line) = some (k0, v0)) :
    wfPairW (replaceSpaceUnderscore (pyStrip k0), pyStrip v0) := by
  obtain ⟨hs, hna⟩ := splitFirst_eq_some ':' (pyStrip line) k0 v0 h
  have hk0 : ∀ c ∈ k0, c ∈ line := by
    intro c hc
    refine mem_pyStrip c line ?_
    rw [hs]
    exact List.mem_append_left _ hc
  have hv0 : ∀ c ∈ v0, c ∈ line := by
    intro c hc
    refine mem_pyStrip c line ?_
    rw [hs]
    exact List.mem_append_right _ (List.mem_cons_of_mem _ hc)
  refine ⟨headOk_replaceSpaceUnderscore _ (headOk_pyStrip k0),
    lastOk_replaceSpaceUnderscore _ (lastOk_pyStrip k0), ?_, ?_, ?_,
    headOk_pyStrip v0, lastOk_pyStrip v0, ?_⟩
  · intro hmem
    have : (':') ∈ pyStrip k0 :=
      mem_of_mem_replaceSpaceUnderscore ':' (pyStrip k0) hmem (by decide)
    exact hna (mem_pyStrip ':' k0 this)
  · intro hmem
    have : ('\n') ∈ pyStrip k0 :=
      mem_of_mem_replaceSpaceUnderscore '\n' (pyStrip k0) hmem (by decide)
    exact hline (hk0 '\n' (mem_pyStrip '\n' k0 this))
  · intro hmem
    exact not_space_of_mem_replaceSpaceUnderscore ' ' (pyStrip k0) hmem rfl
  · intro hmem
    exact hline (hv0 '\n' (mem_pyStrip '\n' v0 hmem))

theorem kv_fold_wf (lines : List Str) :
    ∀ acc : Dict, (∀ l ∈ lines, noTermStr l) → (∀ p ∈ acc, wfPairA p) →
      ∀ p ∈ lines.foldl kvLineStep acc, wfPairA p := by
  induction lines with
  | nil => intro acc _ hacc; exact hacc
  | cons line rest ih =>
    intro acc hlines hacc
    simp only [List.foldl_cons]
    refine ih (kvLineStep acc line) (fun l hl => hlines l (List.mem_cons_of_mem _ hl)) ?_
    rcases kvLineStep_cases acc line with h | ⟨k0, v0, hsp, h⟩ <;> rw [h]
    · exact hacc
    · intro p hp
      rcases mem_dinsert p _ _ acc hp with h2 | h2
      · rw [h2]
        exact kv_new_pair_wf line k0 v0 (hlines line (List.mem_cons_self _ _)) hsp
      · exact hacc p h2

theorem keyval_fold_wf (lines : List Str) :
    ∀ acc : Dict, (∀ l ∈ lines, ('\n') ∉ l) → (∀ p ∈ acc, wfPairW p) →
      ∀ p ∈ lines.foldl keyvalLineStep acc, wfPairW p := by
  induction lines with
  | nil => intro acc _ hacc; exact hacc
  | cons line rest ih =>
    intro acc hlines hacc
    simp only [List.foldl_cons]
    refine ih (keyvalLineStep acc line) (fun l hl => hlines l (List.mem_cons_of_mem _ hl)) ?_
    rcases keyvalLineStep_cases acc line with h | ⟨k0, v0, hsp, h⟩ <;> rw [h]
    · exact hacc
    · intro p hp
      rcases mem_dinsert p _ _ acc hp with h2 | h2
      · rw [h2]
        exact keyval_new_pair_wf line k0 v0 (hlines line (List.mem_cons_self _ _)) hsp
      · exact hacc p h2

theorem parse_kv_wf (t : Str) : ∀ p ∈ parse_key_value_pairs t, wfPairA p := by
  refine kv_fold_wf (pySplitlines t) [] ?_ (by simp)
  intro l hl c hc
  exact mem_pySplitlines_noterm t l hl c hc

theorem parse_keyval_wf (t : Str) : ∀ p ∈ parse_keyval_response t, wfPairW p := by
  refine keyval_fold_wf _ [] ?_ (by simp)
  intro l hl
  exact mem_splitOnChar_not_sep '\n' _ l hl

theorem kv_fold_nodup (lines : List Str) :
    ∀ acc : Dict, (dkeys acc).Nodup → (dkeys (lines.foldl kvLineStep acc)).Nodup := by
  induction lines with
  | nil => intro acc h; exact h
  | cons line rest ih =>
    intro acc h
    simp only [List.foldl_cons]
    refine ih _ ?_
    rcases kvLineStep_cases acc line with h2 | ⟨k0, v0, _, h2⟩ <;> rw [h2]
    · exact h
    · exact nodup_dkeys_dinsert _ _ _ h

theorem keyval_fold_nodup (lines : List Str) :
    ∀ acc : Dict, (dkeys acc).Nodup → (dkeys (lines.foldl keyvalLineStep acc)).Nodup := by
  induction lines with
  | nil => intro acc h; exact h
  | cons line rest ih =>
    intro acc h
    simp only [List.foldl_cons]
    refine ih _ ?_
    rcases keyvalLineStep_cases acc line with h2 | ⟨k0, v0, _, h2⟩ <;> rw [h2]
    · exact h
    · exact nodup_dkeys_dinsert _ _ _ h

theorem parse_kv_nodup (t : Str) : (dkeys (parse_key_value_pairs t)).Nodup :=
  kv_fold_nodup (pySplitlines t) [] (by simp [dkeys])

theorem parse_keyval_nodup (t : Str) : (dkeys (parse_keyval_response t)).Nodup :=
  keyval_fold_nodup _ [] (by simp [dkeys])

theorem lineOf_eq (p : Str × Str) : lineOf p = p.1 ++ ':' :: ' ' :: p.2 := by
  show p.1 ++ [':', ' '] ++ p.2 = p.1 ++ ':' :: ' ' :: p.2
  rw [List.append_assoc]
  rfl

theorem lineOf_ne_nil (p : Str × Str) : lineOf p ≠ [] := by
  rw [lineOf_eq]
  simp

theorem headOk_lineOf (p : Str × Str) (h : headOk p.1 = true) : headOk (lineOf p) = true := by
  rw [lineOf_eq]
  cases hp : p.1 with
  | nil => rfl
  | cons c r =>
    rw [hp] at h
    rw [List.cons_append]
    simpa [headOk] using h

theorem mem_lineOf_colon (p : Str × Str) : (':') ∈ lineOf p := by
  rw [lineOf_eq]
  exact List.mem_append_right _ (List.mem_cons_self _ _)

theorem noTerm_lineOf (p : Str × Str) (h1 : noTermStr p.1) (h2 : noTermStr p.2) :
    noTermStr (lineOf p) := by
  intro c hc
  rw [lineOf_eq] at hc
  rcases List.mem_append.1 hc with h3 | h3
  · exact h1 c h3
  · rcases List.mem_cons.1 h3 with h4 | h4
    · subst h4; decide
    · rcases List.mem_cons.1 h4 with h5 | h5
      · subst h5; decide
      · exact h2 c h5

theorem no_lf_lineOf (p : Str × Str) (h1 : ('\n') ∉ p.1) (h2 : ('\n') ∉ p.2) :
    ('\n') ∉ lineOf p := by
  intro hc
  rw [lineOf_eq] at hc
  rcases List.mem_append.1 hc with h3 | h3
  · exact h1 h3
  · rcases List.mem_cons.1 h3 with h4 | h4
    · exact absurd h4 (by decide)
    · rcases List.mem_cons.1 h4 with h5 | h5
      · exact absurd h5 (by decide)
      · exact h2 h5

theorem collapseCrLf_noterm (a : Str) (h : ∀ c ∈ a, isLineTerm c = false) :
    collapseCrLf a = a := by
  induction a with
  | nil => rfl
  | cons c a2 ih =>
    rw [collapseCrLf_cons_noterm c a2 (h c (List.mem_cons_self c a2)),
      ih (fun d hd => h d (List.mem_cons_of_mem c hd))]

theorem pySplitlines_serializeKV (d : Dict) (h : ∀ p ∈ d, noTermStr (lineOf p)) :
    pySplitlines (serializeKV d) = d.map lineOf := by
  induction d with
  | nil => rfl
  | cons p d2 ih =>
    cases d2 with
    | nil =>
      show splitlinesAux [] (collapseCrLf (lineOf p)) = [lineOf p]
      rw [collapseCrLf_noterm _ (h p (List.mem_cons_self _ _)),
        splitlinesAux_noterm _ (h p (List.mem_cons_self _ _)) []]
      simp [lineOf_ne_nil p]
    | cons q d3 =>
      have hx := h p (List.mem_cons_self _ _)
      have hrest : ∀ r ∈ q :: d3, noTermStr (lineOf r) :=
        fun r hr => h r (List.mem_cons_of_mem _ hr)
      have hser : serializeKV (p :: q :: d3)
          = lineOf p ++ '\n' :: serializeKV (q :: d3) := by
        show lineOf p ++ S "\n" ++ joinLines (S "\n") (lineOf q :: d3.map lineOf)
            = lineOf p ++ '\n' :: joinLines (S "\n") (lineOf q :: d3.map lineOf)
        rw [List.append_assoc]
        rfl
      show splitlinesAux [] (collapseCrLf (serializeKV (p :: q :: d3))) = _
      rw [hser, collapseCrLf_append_noterm _ _ hx, collapseCrLf_cons_lf,
        splitlinesAux_append (lineOf p) hx _ []]
      rw [List.map_cons, ← ih hrest]
      simp [pySplitlines]

theorem pyStrip_nil : pyStrip [] = [] := rfl

theorem pyStrip_key_colon (k : Str) (hk1 : headOk k = true) :
    pyStrip (k ++ [':']) = k ++ [':'] := by
  refine pyStrip_clean _ ?_ ?_
  · cases hk : k with
    | nil => rfl
    | cons c k2 =>
      rw [hk] at hk1
      rw [List.cons_append]
      simpa [headOk] using hk1
  · rw [lastOk_append k [':'] (by simp)]
    decide

theorem pyStrip_full_line (k v : Str) (hk1 : headOk k = true)
    (hv1 : headOk v = true) (hv2 : lastOk v = true) :
    pyStrip (k ++ ':' :: ' ' :: v)
      = if v = [] then k ++ [':'] else k ++ ':' :: ' ' :: v := by
  have hleft : pyStripLeft (k ++ ':' :: ' ' :: v) = k ++ ':' :: ' ' :: v := by
    refine pyStripLeft_eq_self _ ?_
    cases hk : k with
    | nil => rfl
    | cons c k2 =>
      rw [hk] at hk1
      rw [List.cons_append]
      simpa [headOk] using hk1
  by_cases hv : v = []
  · subst hv
    rw [pyStrip, hleft]
    have h2 : k ++ ':' :: ' ' :: ([] : Str) = (k ++ [':']) ++ [' '] := by simp
    rw [h2, pyStripRight_snoc_ws _ ' ' (by decide)]
    rw [pyStripRight_eq_self _ (by rw [lastOk_append k [':'] (by simp)]; decide)]
    simp
  · rw [pyStrip, hleft]
    have h2 : k ++ ':' :: ' ' :: v = (k ++ [':', ' ']) ++ v := by simp
    rw [h2, pyStripRight_eq_self _ (by rw [lastOk_append _ v hv]; exact hv2)]
    simp [hv]

theorem pyStrip_space_cons (v : Str) (hv1 : headOk v = true) (hv2 : lastOk v = true) :
    pyStrip (' ' :: v) = v := by
  rw [pyStrip]
  have h : pyStripLeft (' ' :: v) = pyStripLeft v := by
    simp [pyStripLeft, isPySpace]
  rw [h, pyStripLeft_eq_self v hv1, pyStripRight_eq_self v hv2]

theorem kvLineStep_wf_line (acc : Dict) (k v line : Str) (hw : wfPairA (k, v))
    (hline : line = k ++ ':' :: ' ' :: v ∨ (line = k ++ [':'] ∧ v = [])) :
    kvLineStep acc line = dinsert k v acc := by
  obtain ⟨hk1, hk2, hkc, hkt, hv1, hv2, hvt⟩ := hw
  unfold kvLineStep
  rcases hline with rfl | ⟨rfl, rfl⟩
  · rw [pyStrip_full_line k v hk1 hv1 hv2]
    by_cases hv : v = []
    · subst hv
      have hsp : splitFirst ':' (k ++ [':']) = some (k, []) := by
        simpa using splitFirst_append_first ':' k [] hkc
      simp [hsp, pyStrip_clean k hk1 hk2, pyStrip_nil]
    · have hsp : splitFirst ':' (k ++ ':' :: ' ' :: v) = some (k, ' ' :: v) :=
        splitFirst_append_first ':' k (' ' :: v) hkc
      simp [hv, hsp, pyStrip_clean k hk1 hk2, pyStrip_space_cons v hv1 hv2]
  · rw [pyStrip_key_colon k hk1]
    have hsp : splitFirst ':' (k ++ [':']) = some (k, []) := by
      simpa using splitFirst_append_first ':' k [] hkc
    simp [hsp, pyStrip_clean k hk1 hk2, pyStrip_nil]

theorem keyvalLineStep_wf_line (acc : Dict) (k v line : Str) (hw : wfPairW (k, v))
    (hline : line = k ++ ':' :: ' ' :: v ∨ (line = k ++ [':'] ∧ v = [])) :
    keyvalLineStep acc line = dinsert k v acc := by
  obtain ⟨hk1, hk2, hkc, hkn, hks, hv1, hv2, hvn⟩ := hw
  unfold keyvalLineStep
  rcases hline with rfl | ⟨rfl, rfl⟩
  · rw [pyStrip_full_line k v hk1 hv1 hv2]
    by_cases hv : v = []
    · subst hv
      have hsp : splitFirst ':' (k ++ [':']) = some (k, []) := by
        simpa using splitFirst_append_first ':' k [] hkc
      simp [hsp, pyStrip_clean k hk1 hk2, replaceSpaceUnderscore_eq_self k hks, pyStrip_nil]
    · have hsp : splitFirst ':' (k ++ ':' :: ' ' :: v) = some (k, ' ' :: v) :=
        splitFirst_append_first ':' k (' ' :: v) hkc
      simp [hv, hsp, pyStrip_clean k hk1 hk2, replaceSpaceUnderscore_eq_self k hks,
        pyStrip_space_cons v hv1 hv2]
  · rw [pyStrip_key_colon k hk1]
    have hsp : splitFirst ':' (k ++ [':']) = some (k, []) := by
      simpa using splitFirst_append_first ':' k [] hkc
    simp [hsp, pyStrip_clean k hk1 hk2, replaceSpaceUnderscore_eq_self k hks, pyStrip_nil]

theorem kv_fold_lineOf (d : Dict) (hwf : ∀ p ∈ d, wfPairA p) :
    ∀ acc : Dict, (d.map lineOf).foldl kvLineStep acc
      = d.foldl (fun a p => dinsert p.1 p.2 a) acc := by
  induction d with
  | nil => intro acc; rfl
  | cons p d2 ih =>
    intro acc
    obtain ⟨k, v⟩ := p
    simp only [List.map_cons, List.foldl_cons]
    rw [kvLineStep_wf_line acc k v _ (hwf (k, v) (List.mem_cons_self _ _))
      (Or.inl (lineOf_eq (k, v)))]
    exact ih (fun q hq => hwf q (List.mem_cons_of_mem _ hq)) _

theorem parse_serialize_parse_kv (t : Str) :
    parse_key_value_pairs (serializeKV (parse_key_value_pairs t))
      = parse_key_value_pairs t := by
  have hwf := parse_kv_wf t
  have hnd := parse_kv_nodup t
  have hlines : ∀ p ∈ parse_key_value_pairs t, noTermStr (lineOf p) := by
    intro p hp
    obtain ⟨h1, h2, h3, h4, h5, h6, h7⟩ := hwf p hp
    exact noTerm_lineOf p h4 h7
  show (pySplitlines (serializeKV (parse_key_value_pairs t))).foldl kvLineStep []
      = parse_key_value_pairs t
  rw [pySplitlines_serializeKV _ hlines, kv_fold_lineOf _ hwf []]
  simpa using foldl_dinsert_eq_append (parse_key_value_pairs t) []
    (by simpa [dkeys] using hnd)

theorem headOk_joinLines (sep : Str) (ls : List Str)
    (h : ∀ l ∈ ls, headOk l = true ∧ l ≠ []) : headOk (joinLines sep ls) = true := by
  cases ls with
  | nil => rfl
  | cons x xs =>
    cases xs with
    | nil => exact (h x (List.mem_cons_self _ _)).1
    | cons y ys =>
      obtain ⟨hx, hxne⟩ := h x (List.mem_cons_self _ _)
      show headOk (x ++ sep ++ joinLines sep (y :: ys)) = true
      rw [List.append_assoc, headOk_append x _ hxne]
      exact hx

theorem mem_joinLines_head (sep x : Str) (xs : List Str) (c : Char) (hc : c ∈ x) :
    c ∈ joinLines sep (x :: xs) := by
  cases xs with
  | nil => exact hc
  | cons y ys =>
    show c ∈ x ++ sep ++ joinLines sep (y :: ys)
    exact List.mem_append_left _ (List.mem_append_left _ hc)

theorem colon_mem_serializeKV_cons (q : Str × Str) (d : Dict) :
    (':') ∈ serializeKV (q :: d) := by
  show (':') ∈ joinLines (S "\n") (lineOf q :: d.map lineOf)
  exact mem_joinLines_head _ _ _ _ (mem_lineOf_colon q)

theorem web_fold_serialize :
    ∀ d : Dict, (∀ p ∈ d, wfPairW p) → ∀ acc : Dict,
      (splitOnChar '\n' (pyStripRight (serializeKV d))).foldl keyvalLineStep acc
        = d.foldl (fun a p => dinsert p.1 p.2 a) acc := by
  intro d
  induction d with
  | nil => intro hwf acc; rfl
  | cons p d2 ih =>
    intro hwf acc
    obtain ⟨k, v⟩ := p
    have hw := hwf (k, v) (List.mem_cons_self _ _)
    cases d2 with
    | nil =>
      show (splitOnChar '\n' (pyStripRight (lineOf (k, v)))).foldl keyvalLineStep acc
          = dinsert k v acc
      by_cases hv : v = []
      · subst hv
        have h1 : lineOf (k, ([] : Str)) = (k ++ [':']) ++ [' '] := by
          rw [lineOf_eq]; simp
        rw [h1, pyStripRight_snoc_ws _ ' ' (by decide),
          pyStripRight_eq_self _ (by rw [lastOk_append k [':'] (by simp)]; decide)]
        have h2 : ('\n') ∉ k ++ [':'] := by
          intro hm
          rcases List.mem_append.1 hm with hm | hm
          · exact hw.2.2.2.1 hm
          · simp at hm
        rw [splitOnChar_of_not_mem '\n' _ h2]
        show keyvalLineStep acc (k ++ [':']) = dinsert k ([] : Str) acc
        exact keyvalLineStep_wf_line acc k [] _ hw (Or.inr ⟨rfl, rfl⟩)
      · have hlast : lastOk (lineOf (k, v)) = true := by
          rw [lineOf_eq]
          have h1 : (k : Str) ++ ':' :: ' ' :: v = (k ++ [':', ' ']) ++ v := by simp
          rw [h1, lastOk_append _ v hv]
          exact hw.2.2.2.2.2.2.1
        rw [pyStripRight_eq_self _ hlast]
        have h2 : ('\n') ∉ lineOf (k, v) :=
          no_lf_lineOf (k, v) hw.2.2.2.1 hw.2.2.2.2.2.2.2
        rw [splitOnChar_of_not_mem '\n' _ h2]
        show keyvalLineStep acc (lineOf (k, v)) = dinsert k v acc
        exact keyvalLineStep_wf_line acc k v _ hw (Or.inl (lineOf_eq (k, v)))
    | cons q d3 =>
      have hser : serializeKV ((k, v) :: q :: d3)
          = lineOf (k, v) ++ '\n' :: serializeKV (q :: d3) := by
        show lineOf (k, v) ++ S "\n" ++ joinLines (S "\n") (lineOf q :: d3.map lineOf) = _
        rw [List.append_assoc]
        rfl
      have hwit : ∃ c ∈ '\n' :: serializeKV (q :: d3), isPySpace c = false :=
        ⟨':', List.mem_cons_of_mem _ (colon_mem_serializeKV_cons q d3), by decide⟩
      rw [hser, pyStripRight_append_nonspace _ _ hwit]
      have hne : pyStripRight (serializeKV (q :: d3)) ≠ [] :=
        pyStripRight_ne_nil _ ⟨':', colon_mem_serializeKV_cons q d3, by decide⟩
      rw [pyStripRight_cons_of_ne_nil '\n' _ hne]
      have h2 : ('\n') ∉ lineOf (k, v) :=
        no_lf_lineOf (k, v) hw.2.2.2.1 hw.2.2.2.2.2.2.2
      rw [splitOnChar_append '\n' _ _ h2]
      simp only [List.foldl_cons]
      rw [keyvalLineStep_wf_line acc k v _ hw (Or.inl (lineOf_eq (k, v)))]
      exact ih (fun r hr => hwf r (List.mem_cons_of_mem _ hr)) _

/-- The re-serialized text (after stripping) carries one of the two marker
pairs that `parse_keyval_response` slices off. -/
def fenceMarked (s : Str) : Bool :=
  (pyStartswith (S "```") s && pyEndswith (S "```") s) ||
    (pyStartswith (S "*/") s && pyEndswith (S "*/") s)

theorem stripFence_of_not_marked (s : Str) (h : fenceMarked s = false) :
    stripFence s = s := by
  have h1 : (pyStartswith (S "```") s && pyEndswith (S "```") s) = false := by
    cases hx : (pyStartswith (S "```") s && pyEndswith (S "```") s)
    · rfl
    · rw [fenceMarked, hx] at h; simp at h
  have h2 : (pyStartswith (S "*/") s && pyEndswith (S "*/") s) = false := by
    cases hx : (pyStartswith (S "*/") s && pyEndswith (S "*/") s)
    · rfl
    · rw [fenceMarked, hx] at h; simp at h
  simp [stripFence, h1, h2]

theorem parse_serialize_parse_keyval (t : Str)
    (hf : fenceMarked (pyStrip (serializeKV (parse_keyval_response t))) = false) :
    parse_keyval_response (serializeKV (parse_keyval_response t))
      = parse_keyval_response t := by
  have hwf := parse_keyval_wf t
  have hnd := parse_keyval_nodup t
  show (splitOnChar '\n'
      (stripFence (pyStrip (serializeKV (parse_keyval_response t))))).foldl keyvalLineStep []
      = parse_keyval_response t
  rw [stripFence_of_not_marked _ hf]
  have hleft : pyStripLeft (serializeKV (parse_keyval_response t))
      = serializeKV (parse_keyval_response t) := by
    refine pyStripLeft_eq_self _ ?_
    show headOk (joinLines (S "\n") ((parse_keyval_response t).map lineOf)) = true
    refine headOk_joinLines _ _ ?_
    intro l hl
    rcases List.mem_map.1 hl with ⟨p, hp, rfl⟩
    exact ⟨headOk_lineOf p (hwf p hp).1, lineOf_ne_nil p⟩
  rw [pyStrip, hleft, web_fold_serialize _ hwf []]
  simpa using foldl_dinsert_eq_append (parse_keyval_response t) []
    (by simpa [dkeys] using hnd)

theorem fill_step_lookup (col v : Str) (rows : List Dict) :
    ∀ r ∈ rows.map (fun r => dinsert col v r), dlookup col r = some v := by
  intro r hr
  rcases List.mem_map.1 hr with ⟨r0, hr0, rfl⟩
  simp [dlookup_dinsert]

theorem fill_fold_invariant (col v : Str) (ms : List Str) (rows : List Dict)
    (f : Str → Str) (hcol : f col = v)
    (hinv : ∀ r ∈ rows, dlookup col r = some v) :
    ∀ r ∈ ms.foldl (fun rs c => rs.map (fun r => dinsert c (f c) r)) rows,
      dlookup col r = some v := by
  induction ms generalizing rows with
  | nil => exact hinv
  | cons c ms ih =>
    intro r hr
    simp only [List.foldl_cons] at hr
    refine ih _ (fun r0 hr0 => ?_) r hr
    rcases List.mem_map.1 hr0 with ⟨r1, hr1, rfl⟩
    rw [dlookup_dinsert]
    by_cases h : c = col
    · subst h; simp [hcol]
    · simp [h, hinv r1 hr1]

theorem fill_fold_establish (col : Str) (f : Str → Str) :
    ∀ (ms : List Str) (rows : List Dict), col ∈ ms →
      ∀ r ∈ ms.foldl (fun rs c => rs.map (fun r => dinsert c (f c) r)) rows,
        dlookup col r = some (f col) := by
  intro ms
  induction ms with
  | nil => intro rows h; cases h
  | cons c ms ih =>
    intro rows hmem r hr
    simp only [List.foldl_cons] at hr
    by_cases h : col ∈ ms
    · exact ih _ h r hr
    · have hc : c = col := by
        rcases List.mem_cons.1 hmem with h1 | h1
        · exact h1.symm
        · exact absurd h1 h
      subst hc
      exact fill_fold_invariant c (f c) ms _ f rfl (fill_step_lookup c (f c) rows) r hr

/-- A two-record batch in which the first record's pipeline succeeds and
the second record exhausts its retries. -/
def mixedBatch : List (Dict × AttemptOracle) :=
  [([(S "Product Name", S "A")], fun _ => some (S "", S "")),
   ([(S "Product Name", S "B")], fun _ => none)]

/-- C5 counterexample: in a mixed batch the fallback row supplies
"Food Name", so the column is not structurally missing and the
completeness pass leaves the success row with no value (NaN) for the
required column "Food Name" -- not the default-table value the claim
promises for a value nothing supplied. -/
theorem column_completeness_counterexample :
    S "Food Name" ∈ REQUIRED_COLUMNS ∧
    (fillMissing (process_csv_rows mixedBatch)).length = 2 ∧
    missingRequired (process_csv_rows mixedBatch) = [] ∧
    dlookup (S "Food Name") ((fillMissing (process_csv_rows mixedBatch)).headD []) = none := by
  decide

/-- C5 amended: after a batch run every required column is present in the
output column set; and a required column that NO output row supplied is
filled with `DEFAULT_VALUES.get(col, "")` in every row.  (A required
column supplied by only some rows is left missing -- NaN -- in the rows
that did not supply it.) -/
theorem column_completeness_structural (records : List (Dict × AttemptOracle)) (col : Str)
    (h : col ∈ REQUIRED_COLUMNS) :
    col ∈ dfColumns (process_csv_rows records) ++ missingRequired (process_csv_rows records) ∧
    (col ∉ dfColumns (process_csv_rows records) →
      ∀ r ∈ fillMissing (process_csv_rows records),
        dlookup col r = some (pyGet DEFAULT_VALUES col (S ""))) := by
  constructor
  · by_cases hc : col ∈ dfColumns (process_csv_rows records)
    · exact List.mem_append_left _ hc
    · refine List.mem_append_right _ ?_
      unfold missingRequired
      exact List.mem_filter.2 ⟨h, by simpa using hc⟩
  · intro hc r hr
    have hmem : col ∈ missingRequired (process_csv_rows records) := by
      unfold missingRequired
      exact List.mem_filter.2 ⟨h, by simpa using hc⟩
    unfold fillMissing at hr
    exact fill_fold_establish col (fun c => pyGet DEFAULT_VALUES c (S ""))
      (missingRequired (process_csv_rows records)) _ hmem r hr

theorem column_completeness_structural_witness :
    dlookup (S "Food Name")
        ((fillMissing (process_csv_rows [([], fun _ => some (S "", S ""))])).headD [])
      = some (pyGet DEFAULT_VALUES (S "Food Name") (S "")) := by
  have h := (column_completeness_structural [([], fun _ => some (S "", S ""))]
    (S "Food Name") (by decide)).2 (by decide)
  exact h _ (by decide)

theorem mem_joinLines (sep : Str) (ls : List Str) (c : Char) (h : c ∈ joinLines sep ls) :
    c ∈ sep ∨ ∃ w ∈ ls, c ∈ w := by
  induction ls with
  | nil => simp [joinLines] at h
  | cons x xs ih =>
    cases xs with
    | nil => exact Or.inr ⟨x, List.mem_cons_self _ _, h⟩
    | cons y ys =>
      have h0 : c ∈ (x ++ sep) ++ joinLines sep (y :: ys) := h
      rcases List.mem_append.1 h0 with h2 | h2
      · rcases List.mem_append.1 h2 with h3 | h3
        · exact Or.inr ⟨x, List.mem_cons_self _ _, h3⟩
        · exact Or.inl h3
      · rcases ih h2 with h3 | ⟨w, hw, hcw⟩
        · exact Or.inl h3
        · exact Or.inr ⟨w, List.mem_cons_of_mem _ hw, hcw⟩

theorem mem_splitWSAux (s : Str) :
    ∀ acc, (∀ c ∈ acc, isPySpace c = false) →
      ∀ w ∈ splitWSAux acc s, w ≠ [] ∧ ∀ c ∈ w, isPySpace c = false := by
  induction s with
  | nil =>
    intro acc hacc w hw
    by_cases ha : acc = []
    · simp [splitWSAux, ha] at hw
    · simp [splitWSAux, ha] at hw
      subst hw
      refine ⟨by simpa using ha, ?_⟩
      intro c hc
      exact hacc c (List.mem_reverse.1 hc)
  | cons d rest ih =>
    intro acc hacc w hw
    rw [splitWSAux] at hw
    by_cases hd : isPySpace d
    · simp only [hd, if_true] at hw
      by_cases ha : acc = []
      · rw [if_pos ha] at hw
        exact ih [] (by simp) w hw
      · rw [if_neg ha] at hw
        rcases List.mem_cons.1 hw with h2 | h2
        · subst h2
          refine ⟨by simpa using ha, ?_⟩
          intro c hc
          exact hacc c (List.mem_reverse.1 hc)
        · exact ih [] (by simp) w h2
    · simp only [hd, Bool.false_eq_true, if_false] at hw
      refine ih (d :: acc) ?_ w hw
      intro c hc
      rcases List.mem_cons.1 hc with h2 | h2
      · subst h2; simpa using hd
      · exact hacc c h2

theorem mem_splitWSAux_subset (s : Str) :
    ∀ acc, ∀ w ∈ splitWSAux acc s, ∀ c ∈ w, c ∈ s ∨ c ∈ acc := by
  induction s with
  | nil =>
    intro acc w hw c hc
    by_cases ha : acc = []
    · simp [splitWSAux, ha] at hw
    · simp [splitWSAux, ha] at hw
      subst hw
      exact Or.inr (List.mem_reverse.1 hc)
  | cons d rest ih =>
    intro acc w hw c hc
    rw [splitWSAux] at hw
    by_cases hd : isPySpace d
    · simp only [hd, if_true] at hw
      by_cases ha : acc = []
      · rw [if_pos ha] at hw
        rcases ih [] w hw c hc with h | h
        · exact Or.inl (List.mem_cons_of_mem d h)
        · simp at h
      · rw [if_neg ha] at hw
        rcases List.mem_cons.1 hw with h2 | h2
        · subst h2
          exact Or.inr (List.mem_reverse.1 hc)
        · rcases ih [] w h2 c hc with h | h
          · exact Or.inl (List.mem_cons_of_mem d h)
          · simp at h
    · simp only [hd, Bool.false_eq_true, if_false] at hw
      rcases ih (d :: acc) w hw c hc with h | h
      · exact Or.inl (List.mem_cons_of_mem d h)
      · rcases List.mem_cons.1 h with h2 | h2
        · subst h2; exact Or.inl (List.mem_cons_self _ _)
        · exact Or.inr h2

theorem splitWSAux_word_append (w : Str) (hw : ∀ c ∈ w, isPySpace c = false) :
    ∀ acc b, splitWSAux acc (w ++ ' ' :: b)
      = if acc.reverse ++ w = [] then splitWSAux [] b
        else (acc.reverse ++ w) :: splitWSAux [] b := by
  induction w with
  | nil =>
    intro acc b
    show splitWSAux acc (' ' :: b) = _
    rw [splitWSAux]
    have hsp : isPySpace ' ' = true := by decide
    simp only [hsp, if_true]
    by_cases ha : acc = [] <;> simp [ha]
  | cons d w2 ih =>
    intro acc b
    have hd : isPySpace d = false := hw d (List.mem_cons_self _ _)
    show splitWSAux acc (d :: (w2 ++ ' ' :: b)) = _
    rw [splitWSAux]
    simp only [hd, Bool.false_eq_true, if_false]
    rw [ih (fun c hc => hw c (List.mem_cons_of_mem d hc)) (d :: acc) b]
    have h1 : (d :: acc).reverse ++ w2 = acc.reverse ++ d :: w2 := by simp
    rw [h1]

theorem splitWSAux_word_end (w : Str) (hw : ∀ c ∈ w, isPySpace c = false) :
    ∀ acc, splitWSAux acc w
      = if acc.reverse ++ w = [] then [] else [acc.reverse ++ w] := by
  induction w with
  | nil =>
    intro acc
    show splitWSAux acc [] = _
    rw [splitWSAux]
    by_cases ha : acc = [] <;> simp [ha]
  | cons d w2 ih =>
    intro acc
    have hd : isPySpace d = false := hw d (List.mem_cons_self _ _)
    rw [splitWSAux]
    simp only [hd, Bool.false_eq_true, if_false]
    rw [ih (fun c hc => hw c (List.mem_cons_of_mem d hc)) (d :: acc)]
    have h1 : (d :: acc).reverse ++ w2 = acc.reverse ++ d :: w2 := by simp
    rw [h1]

theorem pySplitWS_joinLines (ws : List Str)
    (h : ∀ w ∈ ws, w ≠ [] ∧ ∀ c ∈ w, isPySpace c = false) :
    pySplitWS (joinLines (S " ") ws) = ws := by
  induction ws with
  | nil => rfl
  | cons w ws2 ih =>
    obtain ⟨hne, hsf⟩ := h w (List.mem_cons_self _ _)
    cases ws2 with
    | nil =>
      show splitWSAux [] w = [w]
      rw [splitWSAux_word_end w hsf []]
      simp [hne]
    | cons y ys =>
      show splitWSAux [] (w ++ S " " ++ joinLines (S " ") (y :: ys)) = w :: y :: ys
      have hassoc : w ++ S " " ++ joinLines (S " ") (y :: ys)
          = w ++ ' ' :: joinLines (S " ") (y :: ys) := by
        rw [List.append_assoc]; rfl
      rw [hassoc, splitWSAux_word_append w hsf []]
      simp only [List.reverse_nil, List.nil_append, if_neg hne]
      exact congrArg (fun l => w :: l) (ih (fun x hx => h x (List.mem_cons_of_mem _ hx)))

theorem cleanTextCore_idem (alnum : Char → Bool)
    (hal : ∀ c, isPySpace c = true → alnum c = false) (s : Str) :
    cleanTextCore alnum (cleanTextCore alnum s) = cleanTextCore alnum s := by
  have hwords : ∀ w ∈ pySplitWS (s.filter (cleanKeep alnum)),
      w ≠ [] ∧ ∀ c ∈ w, isPySpace c = false :=
    fun w hw => mem_splitWSAux (s.filter (cleanKeep alnum)) [] (by simp) w hw
  have hchars : ∀ c ∈ joinLines (S " ") (pySplitWS (s.filter (cleanKeep alnum))),
      cleanKeep alnum c = true := by
    intro c hc
    rcases mem_joinLines _ _ c hc with h2 | ⟨w, hw, hcw⟩
    · have hsp : c = ' ' := by simpa [S] using h2
      subst hsp
      show cleanKeep alnum ' ' = true
      unfold cleanKeep
      have hmem : (S " .,;:!?()-/").contains ' ' = true := by decide
      rw [hmem, Bool.or_true]
    · have h3 : c ∈ s.filter (cleanKeep alnum) := by
        rcases mem_splitWSAux_subset _ [] w hw c hcw with h4 | h4
        · exact h4
        · simp at h4
      exact List.of_mem_filter h3
  show joinLines (S " ")
      (pySplitWS ((joinLines (S " ") (pySplitWS (s.filter (cleanKeep alnum)))).filter
        (cleanKeep alnum)))
      = joinLines (S " ") (pySplitWS (s.filter (cleanKeep alnum)))
  rw [List.filter_eq_self.2 hchars, pySplitWS_joinLines _ hwords]

theorem pyIsAlnumAscii_not_space (c : Char) (h : isPySpace c = true) :
    pyIsAlnumAscii c = false := by
  have h2 : ((((c = ' ' ∨ c = '\t') ∨ c = '\n') ∨ c = '\r') ∨ c = '\x0b') ∨ c = '\x0c' := by
    simpa [isPySpace] using h
  rcases h2 with ((((rfl | rfl) | rfl) | rfl) | rfl) | rfl <;> decide

/-- C10: the output sanitizer `clean_text` is idempotent on every string --
for any alphanumeric predicate disjoint from whitespace, as Python's
`str.isalnum` is -- and returns every non-string input unchanged. -/
theorem clean_text_idempotent {α : Type} (alnum : Char → Bool)
    (hal : ∀ c, isPySpace c = true → alnum c = false) (s : Str) (x : α) :
    cleanTextCore alnum (cleanTextCore alnum s) = cleanTextCore alnum s ∧
    clean_text (clean_text s) = clean_text s ∧
    clean_text_val (Sum.inr x : Str ⊕ α) = Sum.inr x ∧
    clean_text_val (Sum.inl s : Str ⊕ α) = Sum.inl (clean_text s) :=
  ⟨cleanTextCore_idem alnum hal s,
    cleanTextCore_idem pyIsAlnumAscii pyIsAlnumAscii_not_space s, rfl, rfl⟩

theorem clean_text_idempotent_witness :
    cleanTextCore pyIsAlnumAscii (cleanTextCore pyIsAlnumAscii (S "a *b  c!"))
      = cleanTextCore pyIsAlnumAscii (S "a *b  c!") ∧
    clean_text (clean_text (S "a *b  c!")) = clean_text (S "a *b  c!") ∧
    clean_text_val (Sum.inr 0 : Str ⊕ Nat) = Sum.inr 0 ∧
    clean_text_val (Sum.inl (S "a *b  c!") : Str ⊕ Nat)
      = Sum.inl (clean_text (S "a *b  c!")) :=
  clean_text_idempotent pyIsAlnumAscii pyIsAlnumAscii_not_space (S "a *b  c!") 0

/-- C6 counterexample: `parse_key_value_pairs` only trims keys; the key
parsed from "Food Type: Pork" keeps its internal space, so not every key
returned by the text response parsers is space-free. -/
theorem key_normalization_counterexample :
    parse_key_value_pairs (S "Food Type: Pork") = [(S "Food Type", S "Pork")] ∧
    (' ') ∈ (S "Food Type") := by decide

/-- C6 amended: every key in the mapping returned by `parse_keyval_response`
has its spaces replaced by underscores (no returned key contains a space);
`parse_key_value_pairs` performs no such normalization and its keys may
retain internal spaces. -/
theorem key_normalization_web (t k v : Str) (h : (k, v) ∈ parse_keyval_response t) :
    (' ') ∉ k ∧ replaceSpaceUnderscore k = k := by
  have hw := parse_keyval_wf t (k, v) h
  exact ⟨hw.2.2.2.2.1, replaceSpaceUnderscore_eq_self k hw.2.2.2.2.1⟩

theorem key_normalization_web_witness :
    (' ') ∉ (S "Food_Type") ∧
    replaceSpaceUnderscore (S "Food_Type") = S "Food_Type" :=
  key_normalization_web (S "Food Type: x") (S "Food_Type") (S "x") (by decide)

/-- C7 counterexample: the code-fence removal of `parse_keyval_response`
breaks idempotence: parsing "x\n```a: b```" yields the key "```a" with
value "b```", whose re-serialization "```a: b```" is taken for a fenced
block and parses to a different mapping. -/
theorem parser_idempotence_counterexample :
    parse_keyval_response (serializeKV (parse_keyval_response (S "x\n```a: b```")))
      ≠ parse_keyval_response (S "x\n```a: b```") := by decide

/-- C7 amended: parse-serialize-parse equals parse for
`parse_key_value_pairs` on every input; for `parse_keyval_response` it
holds whenever the stripped re-serialization does not itself carry a
wrapping "```" or "*/" marker pair (the fence-removal branch breaks
idempotence on such inputs). -/
theorem parser_idempotence (t : Str)
    (hf : fenceMarked (pyStrip (serializeKV (parse_keyval_response t))) = false) :
    parse_key_value_pairs (serializeKV (parse_key_value_pairs t))
      = parse_key_value_pairs t ∧
    parse_keyval_response (serializeKV (parse_keyval_response t))
      = parse_keyval_response t :=
  ⟨parse_serialize_parse_kv t, parse_serialize_parse_keyval t hf⟩

theorem parser_idempotence_witness :
    parse_key_value_pairs (serializeKV (parse_key_value_pairs (S "Price: 12\nFood Type: Pork")))
      = parse_key_value_pairs (S "Price: 12\nFood Type: Pork") ∧
    parse_keyval_response (serializeKV (parse_keyval_response (S "Price: 12\nFood Type: Pork")))
      = parse_keyval_response (S "Price: 12\nFood Type: Pork") :=
  parser_idempotence (S "Price: 12\nFood Type: Pork") (by decide)

/-- C9: the dictionary returned by `full_pipeline` depends only on the two
chain completions for `inputs["product_name"]`; the internal
"Unknown"-sentinel reconciliation of Price, Currency, Food Type and Course
never affects the returned value, so `full_pipeline` equals the simplified
function that omits those computations. -/
theorem full_pipeline_refines_simplified (ch : PipelineChains) (inputs : Dict) :
    full_pipeline ch inputs = full_pipeline_simplified ch inputs := by
  unfold full_pipeline full_pipeline_simplified
  cases dlookup (S "product_name") inputs <;> rfl

example : parse_key_value_pairs (S "Price: 12\n\nFood Type: Pork\nnocolon") =
    [(S "Price", S "12"), (S "Food Type", S "Pork")] := by decide

example : parse_keyval_response (S "```\nWine_Name_1: A\nFood Type: x\n```") =
    [(S "Wine_Name_1", S "A"), (S "Food_Type", S "x")] := by decide

example : clean_text (S "a*b   c@@") = S "ab c" := by decide

end FoodPipeline
